import Mathlib

/-!
Shallow embedding of `packages/formatter-html/src/result.ts`: the three-level
aggregation engine `HintResult` / `CategoryResult` / `AnalysisResult`.

Modelling conventions:
* JavaScript object references to categories are modelled by indices (`uid`)
  into an append-only `heap` list; the live `categories` array stores uids.
  Mutation of a referenced object is `List.set` on the heap.
* Hint references inside a category are indices into the append-only `hints`
  list (hints are never removed, so indices are stable).
* The two `Map` caches are association lists keyed by lower-cased names.
* External collaborators (`third-party-service-config.json`,
  `category-images.json`, `getCategoryName`) are parameters collected in `Env`.
* Machine numbers are `Nat` / `Int` (counts stay far below 2^53, where
  JavaScript number arithmetic on integers is exact).
-/

namespace FormatterHtml

/-- Modelled from the spec: the `Severity` enum of `@hint/utils-types`
(not part of this repository's sources); spec section 3 declares
`severity: enum{off, default, warning, error}`. -/
inductive Severity where
  | off
  | warning
  | error
  | default
deriving DecidableEq, Repr, Inhabited

/-- Modelled from the spec: the reverse enum lookup
`Severity[problem.severity].toString()` yields the member's name. -/
def Severity.name : Severity → String
  | .off => "off"
  | .warning => "warning"
  | .error => "error"
  | .default => "default"

/-- Model of JavaScript `String.prototype.toLowerCase` in the basic latin
range, matching Lean's `Char.toLower` applied characterwise. -/
def toLowerCase (s : String) : String := ⟨s.data.map Char.toLower⟩

/-- Model of the JS expression `name.split('/')[0]`: the text before the
first `/` (the whole string when there is none). -/
def takeUntilSlash : List Char → List Char
  | [] => []
  | ch :: rest => if ch = '/' then [] else ch :: takeUntilSlash rest

/-- JS `name.split('/')[0]` on a string. -/
def splitHead (name : String) : String := ⟨takeUntilSlash name.data⟩

/-- Model of JS `String.prototype.substr(1)`: drop the first character. -/
def substrOne (s : String) : String := ⟨s.data.drop 1⟩

/-- Association-list model of JavaScript `Map.prototype.get`. -/
def mapGet (m : List (String × Nat)) (k : String) : Option Nat :=
  match m with
  | [] => none
  | e :: rest => if e.1 = k then some e.2 else mapGet rest k

/-- Association-list model of JavaScript `Map.prototype.set`. -/
def mapSet (m : List (String × Nat)) (k : String) (v : Nat) : List (String × Nat) :=
  match m with
  | [] => [(k, v)]
  | e :: rest => if e.1 = k then (k, v) :: rest else e :: mapSet rest k v

/-- Association-list model of JavaScript `Map.prototype.delete`. -/
def mapDel (m : List (String × Nat)) (k : String) : List (String × Nat) :=
  match m with
  | [] => []
  | e :: rest => if e.1 = k then mapDel rest k else e :: mapDel rest k

/-- Index-returning model of `Array.prototype.find` over an indexable list
(also used for `Array.prototype.indexOf`, which returns -1 on a miss,
modelled as `none`). -/
def findIdxP (p : α → Bool) : List α → Option Nat
  | [] => none
  | a :: l => if p a then some 0 else (findIdxP p l).map (· + 1)

/-- Element-returning model of `Array.prototype.find`. -/
def findP (p : α → Bool) : List α → Option α
  | [] => none
  | a :: l => if p a then some a else findP p l

/-- Third party logo type (`ThirdPartyLogo` in the source). -/
structure ThirdPartyLogo where
  name : String
  url : String
  alt : String
deriving DecidableEq, Repr, Inhabited

/-- Third party information (`ThirdPartyInfo` in the source). -/
structure ThirdPartyInfo where
  logo : ThirdPartyLogo
  link : String
  details : Option Bool
deriving DecidableEq, Repr, Inhabited

/-- Modelled from the spec: the externally supplied `Problem` record
(`@hint/utils-types`, not in this repository's sources) with the fields the
engine reads: `hintId`, `category`, `severity`. -/
structure Problem where
  hintId : String
  category : String
  severity : Severity
deriving DecidableEq, Repr, Inhabited

/-- `const hintsWithoutDocs = ['optimize-image'];`. -/
def hintsWithoutDocs : List String := ["optimize-image"]

/-- External collaborators loaded/imported at module top level in the source. -/
structure Env where
  thirdPartyServices : String → Option ThirdPartyInfo
  categoryImages : String → Option String
  getCategoryName : String → Option String → String

/-- Class `HintResult`. -/
structure HintResult where
  status : String
  count : Nat
  problems : List Problem
  name : String
  thirdPartyInfo : Option ThirdPartyInfo
  hasDoc : Bool
deriving DecidableEq, Repr, Inhabited

/-- Constructor of `HintResult` (result.ts lines 45-65). -/
def HintResult.make (thirdPartyServices : String → Option ThirdPartyInfo)
    (name status url : String) (isScanner : Bool) : HintResult :=
  let baseName := splitHead name
  let info :=
    match thirdPartyServices baseName with
    | none => none
    | some i =>
      -- the source line `this.thirdPartyInfo.link.replace(/%URL%/, url);`
      -- discards the value returned by `replace`, so `link` stays unchanged
      -- (`url` is consequently unused here);
      -- `cloneDeep` is value copying, implicit in a pure embedding
      some (if !isScanner then
              { i with logo := { i.logo with url := substrOne i.logo.url } }
            else i)
  let _ := url
  { problems := [], name := name, status := status, count := 0,
    thirdPartyInfo := info,
    hasDoc := !(hintsWithoutDocs.contains name) }

/-- `HintResult.addProblem` (result.ts lines 71-74). -/
def HintResult.addProblem (h : HintResult) (p : Problem) : HintResult :=
  { h with problems := h.problems ++ [p], count := h.count + 1 }

/-- Class `CategoryResult`; `cache` maps lower-cased hint names to indices
into `hints`. -/
structure CategoryResult where
  hintsCount : Nat
  passed : List HintResult
  hints : List HintResult
  name : String
  localizedName : String
  image : Option String
  status : String
  cache : List (String × Nat)
  url : String
  isScanner : Bool
deriving DecidableEq, Repr, Inhabited

/-- Constructor of `CategoryResult` (result.ts lines 102-119). -/
def CategoryResult.make (env : Env) (name url : String) (isScanner : Bool)
    (language : Option String) : CategoryResult :=
  let image0 := env.categoryImages (toLowerCase name)
  let image :=
    match image0 with
    | none => none
    -- `if (this.image && !isScanner)`: the empty string is falsy in JS
    | some s => if (s != "") && !isScanner then some (substrOne s) else some s
  { hints := [], passed := [], name := name,
    localizedName := env.getCategoryName (toLowerCase name) language,
    hintsCount := 0, image := image, isScanner := isScanner,
    status := "finished", url := url, cache := [] }

/-- `CategoryResult.getHintByName` (result.ts lines 125-140); returns the
index of the found hint (a JS reference) plus the possibly-extended cache. -/
def CategoryResult.getHintByName (c : CategoryResult) (name : String) :
    Option Nat × CategoryResult :=
  let lowerCaseName := toLowerCase name
  match mapGet c.cache lowerCaseName with
  | some i => (some i, c)
  | none =>
    match findIdxP (fun hi => toLowerCase hi.name == lowerCaseName) c.hints with
    | some i => (some i, { c with cache := mapSet c.cache lowerCaseName i })
    | none => (none, c)

/-- `CategoryResult.addHint` (result.ts lines 147-163). -/
def CategoryResult.addHint (env : Env) (c : CategoryResult) (name status : String) :
    HintResult × CategoryResult :=
  match c.getHintByName name with
  | (some i, c1) => (c1.hints.getD i default, c1)
  | (none, c1) =>
    let hint := HintResult.make env.thirdPartyServices name status c1.url c1.isScanner
    if status == "pass" then
      (hint, { c1 with passed := c1.passed ++ [hint] })
    else
      (hint, { c1 with hints := c1.hints ++ [hint] })

/-- `CategoryResult.addProblem` (result.ts lines 169-185): resolve or create
the hint, bump `hintsCount` unless the severity is `off`/`default`, then
append the problem to the resolved hint. -/
def CategoryResult.addProblem (env : Env) (c : CategoryResult) (p : Problem) :
    CategoryResult :=
  match c.getHintByName p.hintId with
  | (some i, c1) =>
    let c2 := if p.severity ≠ Severity.off ∧ p.severity ≠ Severity.default
      then { c1 with hintsCount := c1.hintsCount + 1 } else c1
    { c2 with hints := c2.hints.set i ((c2.hints.getD i default).addProblem p) }
  | (none, c1) =>
    let hint := HintResult.make env.thirdPartyServices p.hintId p.severity.name
      c1.url c1.isScanner
    let i := c1.hints.length
    let c2 := { c1 with hints := c1.hints ++ [hint] }
    let c3 := if p.severity ≠ Severity.off ∧ p.severity ≠ Severity.default
      then { c2 with hintsCount := c2.hintsCount + 1 } else c2
    { c3 with hints := c3.hints.set i ((c3.hints.getD i default).addProblem p) }

/-- `FormatterOptions` fields read by the `AnalysisResult` constructor. -/
structure FormatterOptions where
  status : Option String
  scanTime : Option Nat
  date : Option String
  version : Option String
  isScanner : Option Bool
deriving DecidableEq, Repr, Inhabited

/-- `pad` (result.ts lines 242-244): `timeString && timeString.length === 1`. -/
def pad (timeString : String) : String :=
  if (timeString != "") && (timeString.length == 1) then "0" ++ timeString
  else timeString

/-- `AnalysisResult.parseScanTime` (result.ts lines 250-266). `Math.floor` of
the JS float divisions/modulo on a non-negative integer agrees with `Nat`
division and modulo. -/
def parseScanTime (scanTime : Nat) : String :=
  let seconds := scanTime / 1000 % 60
  let minutes := scanTime / 1000 / 60 % 60
  let hours := scanTime / 1000 / 3600
  let minutesDisplay := pad (toString minutes)
  let secondsDisplay := pad (toString seconds)
  let time := minutesDisplay ++ ":" ++ secondsDisplay
  if hours > 0 then pad (toString hours) ++ ":" ++ time else time

/-- Class `AnalysisResult`; `heap` holds every `CategoryResult` object ever
created (JS object identity = heap index), `categories` the live uids,
`cache` maps lower-cased category names to uids. -/
structure AnalysisResult where
  hintsCount : Int
  scanTime : String
  date : Option String
  version : Option String
  permalink : String
  url : String
  isFinish : Bool
  status : String
  id : String
  isScanner : Bool
  percentage : Nat
  showError : Bool
  heap : List CategoryResult
  categories : List Nat
  cache : List (String × Nat)
deriving DecidableEq, Repr, Inhabited

/-- Constructor of `AnalysisResult` (result.ts lines 221-237);
`options.status ? options.status : 'finished'` and
`options.scanTime || 0` respect JS falsiness. -/
def AnalysisResult.make (target : String) (options : FormatterOptions) :
    AnalysisResult :=
  let status :=
    match options.status with
    | some s => if s != "" then s else "finished"
    | none => "finished"
  { url := target
    hintsCount := 0
    status := status
    isFinish := status == "finished" || status == "error"
    showError := status == "error"
    scanTime := parseScanTime (options.scanTime.getD 0)
    date := options.date
    version := options.version
    permalink := ""
    id := ""
    isScanner := options.isScanner.getD false
    percentage := 0
    heap := []
    categories := []
    cache := [] }

/-- `AnalysisResult.getCategoryByName` (result.ts lines 272-287). -/
def AnalysisResult.getCategoryByName (s : AnalysisResult) (name : String) :
    Option Nat × AnalysisResult :=
  let lowerCaseName := toLowerCase name
  match mapGet s.cache lowerCaseName with
  | some uid => (some uid, s)
  | none =>
    match findP (fun uid => toLowerCase (s.heap.getD uid default).name == lowerCaseName)
        s.categories with
    | some uid => (some uid, { s with cache := mapSet s.cache lowerCaseName uid })
    | none => (none, s)

/-- `AnalysisResult.addProblem` (result.ts lines 293-309). -/
def AnalysisResult.addProblem (env : Env) (s : AnalysisResult) (p : Problem)
    (language : Option String) : AnalysisResult :=
  match s.getCategoryByName p.category with
  | (some uid, s1) =>
    let s2 := if p.severity = Severity.error ∨ p.severity = Severity.warning
      then { s1 with hintsCount := s1.hintsCount + 1 } else s1
    { s2 with heap :=
        s2.heap.set uid (CategoryResult.addProblem env (s2.heap.getD uid default) p) }
  | (none, s1) =>
    let cat := CategoryResult.make env p.category s1.url s1.isScanner language
    let uid := s1.heap.length
    let s2 := { s1 with heap := s1.heap ++ [cat], categories := s1.categories ++ [uid] }
    let s3 := if p.severity = Severity.error ∨ p.severity = Severity.warning
      then { s2 with hintsCount := s2.hintsCount + 1 } else s2
    { s3 with heap :=
        s3.heap.set uid (CategoryResult.addProblem env (s3.heap.getD uid default) p) }

/-- `AnalysisResult.addCategory` (result.ts lines 315-325). -/
def AnalysisResult.addCategory (env : Env) (s : AnalysisResult)
    (categoryName : String) (language : Option String) : AnalysisResult :=
  match s.getCategoryByName categoryName with
  | (some _, s1) => s1
  | (none, s1) =>
    let cat := CategoryResult.make env categoryName s1.url s1.isScanner language
    { s1 with heap := s1.heap ++ [cat], categories := s1.categories ++ [s1.heap.length] }

/-- Model of `categories.splice(categories.indexOf(category), 1)`: JS
`Array.indexOf` yields -1 on a miss and `splice(-1, 1)` then removes the
last element, modelled by the `none` branch. -/
def spliceRemove (l : List Nat) (uid : Nat) : List Nat :=
  match findIdxP (fun x => x == uid) l with
  | some index => l.eraseIdx index
  | none => l.dropLast

/-- `AnalysisResult.removeCategory` (result.ts lines 331-345). -/
def AnalysisResult.removeCategory (s : AnalysisResult) (categoryName : String) :
    AnalysisResult :=
  let name := toLowerCase categoryName
  match s.getCategoryByName name with
  | (none, s1) => s1
  | (some uid, s1) =>
    let s2 := { s1 with
      hintsCount := s1.hintsCount - ((s1.heap.getD uid default).hintsCount : Int) }
    let cats := spliceRemove s2.categories uid
    { s2 with categories := cats, cache := mapDel s2.cache name }

/-- The public mutating/lookup operations of `AnalysisResult`. -/
inductive AnalysisOp where
  | addProblem (p : Problem) (language : Option String)
  | addCategory (name : String) (language : Option String)
  | getCategory (name : String)
  | removeCategory (name : String)

/-- One operation applied to the aggregate state. -/
def AnalysisResult.step (env : Env) (s : AnalysisResult) : AnalysisOp → AnalysisResult
  | .addProblem p language => s.addProblem env p language
  | .addCategory name language => s.addCategory env name language
  | .getCategory name => (s.getCategoryByName name).2
  | .removeCategory name => s.removeCategory name

/-- A sequence of operations applied in order. -/
def AnalysisResult.run (env : Env) (s : AnalysisResult) (ops : List AnalysisOp) :
    AnalysisResult :=
  ops.foldl (AnalysisResult.step env) s

/-- Number of problems of a hint whose severity is neither `off` nor
`default` (the category-level counting predicate). -/
def HintResult.countedProblems (h : HintResult) : Nat :=
  (h.problems.filter
    (fun p => p.severity != Severity.off && p.severity != Severity.default)).length

/-- Total number of problems recorded in a category (over both rule
collections). -/
def CategoryResult.problemTotal (c : CategoryResult) : Nat :=
  ((c.hints ++ c.passed).map (fun h => h.problems.length)).sum

/-- Number of problems held by a category whose severity is neither `off`
nor `default` (over both rule collections). -/
def CategoryResult.countedTotal (c : CategoryResult) : Nat :=
  ((c.hints ++ c.passed).map HintResult.countedProblems).sum

/-- The category object a uid refers to. -/
def AnalysisResult.catOf (s : AnalysisResult) (uid : Nat) : CategoryResult :=
  s.heap.getD uid default

/-- Sum of the `hintsCount` fields of the live categories. -/
def AnalysisResult.categoryCountSum (s : AnalysisResult) : Int :=
  (s.categories.map (fun uid => ((s.catOf uid).hintsCount : Int))).sum

/-- Total number of problems recorded across the live categories. -/
def AnalysisResult.problemTotal (s : AnalysisResult) : Nat :=
  (s.categories.map (fun uid => (s.catOf uid).problemTotal)).sum

/-- Coherence of a category's hint cache: every entry points into `hints`
at a hint whose lower-cased name is the key. -/
abbrev CategoryResult.CacheOk (c : CategoryResult) : Prop :=
  ∀ e ∈ c.cache, e.2 < c.hints.length ∧
    toLowerCase (c.hints.getD e.2 default).name = e.1

/-- Category-level invariant: coherent cache and accurate finding count. -/
abbrev CategoryResult.Inv (c : CategoryResult) : Prop :=
  c.CacheOk ∧ c.hintsCount = c.countedTotal

/-- Root-level invariant: uids in range and distinct, category names
pairwise distinct modulo case, coherent cache, accurate root count, and
every live category internally consistent. -/
abbrev AnalysisResult.Inv (s : AnalysisResult) : Prop :=
  (∀ uid ∈ s.categories, uid < s.heap.length) ∧
  s.categories.Nodup ∧
  (∀ uid1 ∈ s.categories, ∀ uid2 ∈ s.categories,
      toLowerCase (s.catOf uid1).name = toLowerCase (s.catOf uid2).name → uid1 = uid2) ∧
  (∀ e ∈ s.cache, e.2 ∈ s.categories ∧ toLowerCase (s.catOf e.2).name = e.1) ∧
  s.hintsCount = s.categoryCountSum ∧
  (∀ uid ∈ s.categories, (s.catOf uid).Inv)

/-- Spec-side elapsed-time formatter, following the spec's words: seconds,
minutes, hours by the stated floor/mod arithmetic, minutes and seconds
zero-padded to two digits, hours zero-padded to two digits and prefixed only
when positive (unbounded). Compared against `parseScanTime` (refinement). -/
def specElapsedDisplay (scanTime : Nat) : String :=
  let seconds := scanTime / 1000 % 60
  let minutes := scanTime / 1000 / 60 % 60
  let hours := scanTime / 1000 / 3600
  let two := fun (n : Nat) => if n < 10 then "0" ++ toString n else toString n
  (if hours > 0 then two hours ++ ":" else "") ++ two minutes ++ ":" ++ two seconds

/-- A trivial concrete environment for concrete test runs. -/
def envT : Env :=
  { thirdPartyServices := fun _ => none
    categoryImages := fun _ => none
    getCategoryName := fun n _ => n }

/-- Concrete constructor options for concrete test runs. -/
def optsT : FormatterOptions :=
  { status := none, scanTime := none, date := none, version := none, isScanner := none }

/-- A concrete third-party table holding one entry, keyed `axe`, whose link
holds the `%URL%` placeholder and whose logo URL is root-relative. -/
def tpsAxe : String → Option ThirdPartyInfo := fun n =>
  if n = "axe" then
    some { logo := { name := "Axe", url := "/images/scan/axe.png", alt := "Axe logo" },
           link := "https://www.deque.com/axe/?utm_source=%URL%",
           details := some true }
  else none

/-- Concrete problem fixture for witnesses. -/
def pW : Problem := { hintId := "hint1", category := "Security", severity := Severity.error }

/-- Concrete category fixture for witnesses. -/
def cW : CategoryResult :=
  CategoryResult.make envT "security" "https://example.com" false none

/-- A category holding one rule named `foo` in its `hints` collection. -/
def cW2 : CategoryResult :=
  (CategoryResult.addHint envT
    (CategoryResult.make envT "security" "https://example.com" false none)
    "foo" "error").2

/-- An aggregate holding one category (`Security`) with one counted problem. -/
def sW : AnalysisResult :=
  AnalysisResult.run envT (AnalysisResult.make "https://example.com" optsT)
    [AnalysisOp.addProblem pW none]

/-! ## Character and digit-string lemmas -/

theorem char_toNat_ofNat_valid {n : Nat} (h : n.isValidChar) :
    (Char.ofNat n).toNat = n := by
  rw [Char.ofNat, dif_pos h]
  rfl

theorem char_toLower_idempotent (c : Char) : c.toLower.toLower = c.toLower := by
  have hdef : ∀ d : Char,
      d.toLower = if d.toNat ≥ 65 ∧ d.toNat ≤ 90 then Char.ofNat (d.toNat + 32) else d :=
    fun d => rfl
  rw [hdef c]
  by_cases h : c.toNat ≥ 65 ∧ c.toNat ≤ 90
  · rw [if_pos h, hdef]
    have hv : Nat.isValidChar (c.toNat + 32) := Or.inl (by omega)
    rw [char_toNat_ofNat_valid hv, if_neg (by omega)]
  · rw [if_neg h, hdef, if_neg h]

theorem toLowerCase_idem (s : String) : toLowerCase (toLowerCase s) = toLowerCase s := by
  have hcomp : Char.toLower ∘ Char.toLower = Char.toLower := funext char_toLower_idempotent
  show String.mk (List.map Char.toLower (List.map Char.toLower s.data)) = _
  rw [List.map_map, hcomp]
  rfl

theorem toDigitsCore_length_lower (b : Nat) :
    ∀ (f n : Nat) (l : List Char), l.length + 1 ≤ (Nat.toDigitsCore b (f + 1) n l).length := by
  intro f
  induction f with
  | zero =>
    intro n l
    show l.length + 1 ≤ (if n / b = 0 then Nat.digitChar (n % b) :: l
      else Nat.toDigitsCore b 0 (n / b) (Nat.digitChar (n % b) :: l)).length
    split <;> simp [Nat.toDigitsCore]
  | succ f ih =>
    intro n l
    show l.length + 1 ≤ (if n / b = 0 then Nat.digitChar (n % b) :: l
      else Nat.toDigitsCore b (f + 1) (n / b) (Nat.digitChar (n % b) :: l)).length
    split
    · simp
    · exact Nat.le_trans (by simp) (ih (n / b) (Nat.digitChar (n % b) :: l))

theorem repr_length_of_ge_ten {n : Nat} (h : 10 ≤ n) : 2 ≤ (Nat.repr n).length := by
  have hd : ¬ (n / 10 = 0) := by
    have := Nat.div_pos (le_refl 10) (by omega)
    have h10 : 10 / 10 ≤ n / 10 := Nat.div_le_div_right h
    omega
  obtain ⟨m, rfl⟩ : ∃ m, n = m + 1 := ⟨n - 1, by omega⟩
  show 2 ≤ (Nat.toDigitsCore 10 (m + 1 + 1) (m + 1) []).length
  rw [show Nat.toDigitsCore 10 (m + 1 + 1) (m + 1) [] =
    (if (m + 1) / 10 = 0 then Nat.digitChar ((m + 1) % 10) :: []
      else Nat.toDigitsCore 10 (m + 1) ((m + 1) / 10)
        (Nat.digitChar ((m + 1) % 10) :: [])) from rfl, if_neg hd]
  exact toDigitsCore_length_lower 10 m ((m + 1) / 10) [Nat.digitChar ((m + 1) % 10)]

theorem pad_toString (n : Nat) :
    pad (toString n) = if n < 10 then "0" ++ toString n else toString n := by
  by_cases h : n < 10
  · rw [if_pos h]
    interval_cases n <;> decide
  · rw [if_neg h]
    have hts : toString n = Nat.repr n := rfl
    have h2 : 2 ≤ (toString n).length := by rw [hts]; exact repr_length_of_ge_ten (by omega)
    unfold pad
    rw [if_neg]
    simp only [Bool.and_eq_true, beq_iff_eq]
    rintro ⟨-, hlen⟩
    omega

/-! ## C5: scan-time formatting -/

/-- C5: for every non-negative millisecond scanTime the code's
`parseScanTime` yields exactly the spec's `[hh:]mm:ss` string (hours
unbounded and prefixed only when positive, all fields zero-padded to two
digits), and the four examples of the spec evaluate as stated. -/
theorem C5_scan_time_formatting :
    (∀ scanTime : Nat, parseScanTime scanTime = specElapsedDisplay scanTime) ∧
    parseScanTime 0 = "00:00" ∧ parseScanTime 65000 = "01:05" ∧
    parseScanTime 3725000 = "01:02:05" ∧ parseScanTime 90000000 = "25:00:00" := by
  refine ⟨?_, by decide, by decide, by decide, by decide⟩
  intro t
  unfold parseScanTime specElapsedDisplay
  simp only [pad_toString]
  by_cases h : t / 1000 / 3600 > 0
  · rw [if_pos h, if_pos h]
    simp [String.append_assoc]
  · rw [if_neg h, if_neg h, String.empty_append]

/-! ## C8: rule-level count invariant and append-only problem list -/

theorem foldl_addProblem_problems (h : HintResult) (ps : List Problem) :
    (ps.foldl HintResult.addProblem h).problems = h.problems ++ ps ∧
    (ps.foldl HintResult.addProblem h).count = h.count + ps.length := by
  induction ps generalizing h with
  | nil => simp
  | cons p ps ih =>
    have hx := ih (h.addProblem p)
    refine ⟨?_, ?_⟩
    · rw [List.foldl_cons, hx.1]
      simp [HintResult.addProblem]
    · rw [List.foldl_cons, hx.2]
      simp only [HintResult.addProblem, List.length_cons]
      omega

theorem make_problems_nil (tps : String → Option ThirdPartyInfo)
    (name status url : String) (isScanner : Bool) :
    (HintResult.make tps name status url isScanner).problems = [] ∧
    (HintResult.make tps name status url isScanner).count = 0 := by
  constructor <;> rfl

/-- C8: after any N `addProblem` calls routed to one `HintResult`, `count`
equals `problems.length` equals N, the problems sit in call order, and every
intermediate state (after the first k calls) already holds exactly the first
k problems in order — the list is append-only. -/
theorem C8_count_equals_problems (tps : String → Option ThirdPartyInfo)
    (name status url : String) (isScanner : Bool) (ps : List Problem) (k : Nat) :
    ((ps.take k).foldl HintResult.addProblem
        (HintResult.make tps name status url isScanner)).problems = ps.take k ∧
    ((ps.take k).foldl HintResult.addProblem
        (HintResult.make tps name status url isScanner)).count = (ps.take k).length ∧
    (ps.foldl HintResult.addProblem
        (HintResult.make tps name status url isScanner)).problems = ps ∧
    (ps.foldl HintResult.addProblem
        (HintResult.make tps name status url isScanner)).count = ps.length := by
  obtain ⟨hp, hc⟩ := make_problems_nil tps name status url isScanner
  obtain ⟨h1, h2⟩ := foldl_addProblem_problems (HintResult.make tps name status url isScanner)
    (ps.take k)
  obtain ⟨h3, h4⟩ := foldl_addProblem_problems (HintResult.make tps name status url isScanner) ps
  rw [hp] at h1 h3
  rw [hc] at h2 h4
  rw [List.nil_append] at h1 h3
  rw [Nat.zero_add] at h2 h4
  exact ⟨h1, h2, h3, h4⟩

/-! ## C3: third-party info construction (code bug: %URL% never substituted) -/

/-- C3 (code bug evaluation): with a third-party table entry for prefix
`axe`, constructing a rule named `axe/aria` outside scanner mode strips the
leading character of the logo URL but leaves the `%URL%` placeholder in
`link` unreplaced, because the source discards the value returned by
`String.replace`; a name whose prefix has no entry yields no third-party
info. The claim says the placeholder is replaced by the target URL. -/
theorem C3_code_bug_eval :
    (HintResult.make tpsAxe "axe/aria" "error" "https://example.com" false).thirdPartyInfo =
      some { logo := { name := "Axe", url := "images/scan/axe.png", alt := "Axe logo" },
             link := "https://www.deque.com/axe/?utm_source=%URL%",
             details := some true } ∧
    (HintResult.make tpsAxe "webhint/no-broken-links" "error"
        "https://example.com" false).thirdPartyInfo = none := by
  constructor <;> rfl

/-! ## C6: idempotent, case-insensitive category registration (corrected:
the stored aggregate keeps the caller's casing) -/

/-- C6 counterexample: `addCategory("Security")` stores the aggregate with
name `"Security"`, not `"security"` — only cache keys and comparisons are
lower-cased, the stored `name` keeps the caller's casing. -/
theorem C6_counterexample :
    (((AnalysisResult.make "https://example.com" optsT).addCategory envT
        "Security" none).catOf 0).name = "Security" ∧
    (((AnalysisResult.make "https://example.com" optsT).addCategory envT
        "Security" none).catOf 0).name ≠ "security" := by
  constructor <;> decide

/-- C6 (amended): calling `addCategory("Security")` twice yields exactly one
CategoryAggregate, stored under the caller's casing `"Security"` (cache keys
are lower-cased, the stored name is not), and `getCategoryByName` under any
casing returns that same instance. -/
theorem C6_amended_idempotent_registration :
    (((AnalysisResult.make "https://example.com" optsT).addCategory envT
        "Security" none).addCategory envT "Security" none).categories = [0] ∧
    (((AnalysisResult.make "https://example.com" optsT).addCategory envT
        "Security" none).addCategory envT "Security" none).heap.length = 1 ∧
    ((((AnalysisResult.make "https://example.com" optsT).addCategory envT
        "Security" none).addCategory envT "Security" none).catOf 0).name = "Security" ∧
    ((((AnalysisResult.make "https://example.com" optsT).addCategory envT
        "Security" none).addCategory envT "Security" none).getCategoryByName
        "Security").1 = some 0 ∧
    ((((AnalysisResult.make "https://example.com" optsT).addCategory envT
        "Security" none).addCategory envT "Security" none).getCategoryByName
        "security").1 = some 0 ∧
    ((((AnalysisResult.make "https://example.com" optsT).addCategory envT
        "Security" none).addCategory envT "Security" none).getCategoryByName
        "SECURITY").1 = some 0 := by
  refine ⟨?_, ?_, ?_, ?_, ?_, ?_⟩ <;> decide

/-! ## C2: addHint idempotence (corrected: only rules filed into `hints`
are reachable; a rule in `passed` is duplicated) -/

/-- C2 counterexample: a rule that was filed into `passedRules` is invisible
to `getHintByName` (which scans only `hints`), so a second
`addHint("foo", "pass")` does not return the existing instance unchanged: it
creates and files a duplicate, leaving two rules named `foo` in `passed`. -/
theorem C2_counterexample :
    ((CategoryResult.addHint envT
        ((CategoryResult.addHint envT
          (CategoryResult.make envT "security" "https://example.com" false none)
          "foo" "pass").2)
        "foo" "pass").2).passed.length = 2 ∧
    (CategoryResult.getHintByName
        ((CategoryResult.addHint envT
          (CategoryResult.make envT "security" "https://example.com" false none)
          "foo" "pass").2)
        "foo").1 = none := by
  constructor <;> decide

/-! ## Helper lemmas about the map / find / list models -/

theorem mapGet_some_mem {m : List (String × Nat)} {k : String} {v : Nat}
    (h : mapGet m k = some v) : (k, v) ∈ m := by
  induction m with
  | nil => simp [mapGet] at h
  | cons e rest ih =>
    by_cases he : e.1 = k
    · rw [mapGet, if_pos he] at h
      have hv : e.2 = v := by injection h
      have hek : e = (k, v) := by
        cases e
        simp_all
      rw [← hek]
      exact List.mem_cons_self e rest
    · rw [mapGet, if_neg he] at h
      exact List.mem_cons_of_mem e (ih h)

theorem mapGet_none {m : List (String × Nat)} {k : String}
    (h : ∀ e ∈ m, e.1 ≠ k) : mapGet m k = none := by
  induction m with
  | nil => rfl
  | cons e rest ih =>
    rw [mapGet, if_neg (h e (List.mem_cons_self e rest))]
    exact ih fun x hx => h x (List.mem_cons_of_mem e hx)

theorem mem_mapSet {m : List (String × Nat)} {k : String} {v : Nat} {e : String × Nat}
    (h : e ∈ mapSet m k v) : e = (k, v) ∨ e ∈ m := by
  induction m with
  | nil => simpa [mapSet] using h
  | cons e0 rest ih =>
    by_cases he : e0.1 = k
    · rw [mapSet, if_pos he] at h
      rcases List.mem_cons.mp h with h | h
      · exact Or.inl h
      · exact Or.inr (List.mem_cons_of_mem e0 h)
    · rw [mapSet, if_neg he] at h
      rcases List.mem_cons.mp h with h | h
      · exact Or.inr (h ▸ List.mem_cons_self e0 rest)
      · rcases ih h with h | h
        · exact Or.inl h
        · exact Or.inr (List.mem_cons_of_mem e0 h)

theorem mem_mapDel {m : List (String × Nat)} {k : String} {e : String × Nat}
    (h : e ∈ mapDel m k) : e ∈ m ∧ e.1 ≠ k := by
  induction m with
  | nil => simp [mapDel] at h
  | cons e0 rest ih =>
    by_cases he : e0.1 = k
    · rw [mapDel, if_pos he] at h
      obtain ⟨h1, h2⟩ := ih h
      exact ⟨List.mem_cons_of_mem e0 h1, h2⟩
    · rw [mapDel, if_neg he] at h
      rcases List.mem_cons.mp h with h | h
      · exact ⟨h ▸ List.mem_cons_self e0 rest, h ▸ he⟩
      · obtain ⟨h1, h2⟩ := ih h
        exact ⟨List.mem_cons_of_mem e0 h1, h2⟩

theorem findIdxP_some {p : α → Bool} {l : List α} {i : Nat} (d : α)
    (h : findIdxP p l = some i) : i < l.length ∧ p (l.getD i d) = true := by
  induction l generalizing i with
  | nil => simp [findIdxP] at h
  | cons a rest ih =>
    by_cases ha : p a
    · rw [findIdxP, if_pos ha] at h
      cases h
      simpa using ha
    · rw [findIdxP, if_neg ha] at h
      cases hr : findIdxP p rest with
      | some j =>
        rw [hr] at h
        have hij : j + 1 = i := by
          simpa using h
        obtain ⟨h1, h2⟩ := ih hr
        subst hij
        exact ⟨by simpa using Nat.succ_lt_succ h1, by simpa using h2⟩
      | none => rw [hr] at h; simp at h

theorem findIdxP_none {p : α → Bool} {l : List α}
    (h : findIdxP p l = none) : ∀ a ∈ l, p a = false := by
  induction l with
  | nil => simp
  | cons a rest ih =>
    by_cases ha : p a
    · rw [findIdxP, if_pos ha] at h
      simp at h
    · rw [findIdxP, if_neg ha] at h
      intro x hx
      rcases List.mem_cons.mp hx with hx | hx
      · subst hx
        simpa using ha
      · refine ih ?_ x hx
        cases hr : findIdxP p rest with
        | none => rfl
        | some j => rw [hr] at h; simp at h

theorem findP_some {p : α → Bool} {l : List α} {a : α}
    (h : findP p l = some a) : a ∈ l ∧ p a = true := by
  induction l with
  | nil => simp [findP] at h
  | cons a0 rest ih =>
    by_cases ha : p a0
    · rw [findP, if_pos ha] at h
      have hae : a0 = a := by injection h
      subst hae
      exact ⟨List.mem_cons_self a0 rest, ha⟩
    · rw [findP, if_neg ha] at h
      obtain ⟨h1, h2⟩ := ih h
      exact ⟨List.mem_cons_of_mem a0 h1, h2⟩

theorem findP_none {p : α → Bool} {l : List α}
    (h : findP p l = none) : ∀ a ∈ l, p a = false := by
  induction l with
  | nil => simp
  | cons a0 rest ih =>
    by_cases ha : p a0
    · rw [findP, if_pos ha] at h
      simp at h
    · rw [findP, if_neg ha] at h
      intro x hx
      rcases List.mem_cons.mp hx with hx | hx
      · subst hx
        simpa using ha
      · exact ih h x hx

theorem getD_append_lt {l : List α} {x d : α} {i : Nat} (h : i < l.length) :
    (l ++ [x]).getD i d = l.getD i d := by
  induction l generalizing i with
  | nil => simp at h
  | cons a rest ih =>
    cases i with
    | zero => rfl
    | succ j =>
      simp only [List.cons_append, List.getD_cons_succ]
      exact ih (by simpa using h)

theorem getD_append_len {l : List α} {x d : α} :
    (l ++ [x]).getD l.length d = x := by
  induction l with
  | nil => rfl
  | cons a rest ih => simp only [List.cons_append, List.length_cons, List.getD_cons_succ, ih]

theorem getD_set_self {l : List α} {x d : α} {i : Nat} (h : i < l.length) :
    (l.set i x).getD i d = x := by
  induction l generalizing i with
  | nil => simp at h
  | cons a rest ih =>
    cases i with
    | zero => rfl
    | succ j =>
      simp only [List.set_cons_succ, List.getD_cons_succ]
      exact ih (by simpa using h)

theorem getD_set_ne {l : List α} {x d : α} {i j : Nat} (h : j ≠ i) :
    (l.set i x).getD j d = l.getD j d := by
  induction l generalizing i j with
  | nil => simp
  | cons a rest ih =>
    cases i with
    | zero =>
      cases j with
      | zero => exact absurd rfl h
      | succ j0 => rfl
    | succ i0 =>
      cases j with
      | zero => rfl
      | succ j0 =>
        simp only [List.set_cons_succ, List.getD_cons_succ]
        exact ih (fun hc => h (by rw [hc]))

theorem mem_set_self {l : List α} {x : α} {i : Nat} (h : i < l.length) :
    x ∈ l.set i x := by
  induction l generalizing i with
  | nil => simp at h
  | cons a rest ih =>
    cases i with
    | zero => exact List.mem_cons_self x rest
    | succ j => exact List.mem_cons_of_mem a (ih (by simpa using h))

theorem set_append_len {l : List α} {x y : α} :
    (l ++ [x]).set l.length y = l ++ [y] := by
  induction l with
  | nil => rfl
  | cons a rest ih => simp only [List.cons_append, List.length_cons, List.set_cons_succ, ih]

theorem sumMap_congr {M : Type} [AddCommMonoid M] {f g : α → M} {l : List α}
    (h : ∀ x ∈ l, f x = g x) : (l.map f).sum = (l.map g).sum := by
  induction l with
  | nil => rfl
  | cons a rest ih =>
    simp only [List.map_cons, List.sum_cons]
    rw [h a (List.mem_cons_self a rest), ih fun x hx => h x (List.mem_cons_of_mem a hx)]

theorem sumMap_set {M : Type} [AddCommMonoid M] {f : α → M} {l : List α} {x : α}
    (d : α) {i : Nat} (h : i < l.length) :
    ((l.set i x).map f).sum + f (l.getD i d) = (l.map f).sum + f x := by
  induction l generalizing i with
  | nil => simp at h
  | cons a rest ih =>
    cases i with
    | zero =>
      simp only [List.set_cons_zero, List.map_cons, List.sum_cons, List.getD_cons_zero]
      simp [add_comm, add_left_comm, add_assoc]
    | succ j =>
      simp only [List.set_cons_succ, List.map_cons, List.sum_cons, List.getD_cons_succ]
      rw [add_assoc, ih (by simpa using h), ← add_assoc]

theorem sumMap_elem_add {M : Type} [AddCommMonoid M] {f g : Nat → M} {l : List Nat}
    {u : Nat} (hu : u ∈ l) (hnd : l.Nodup)
    (hother : ∀ x ∈ l, x ≠ u → g x = f x) :
    (l.map g).sum + f u = (l.map f).sum + g u := by
  induction l with
  | nil => simp at hu
  | cons a rest ih =>
    rcases List.mem_cons.mp hu with h | h
    · have hrest : ∀ x ∈ rest, g x = f x := by
        intro x hx
        have hne : x ≠ u := fun hc => (List.nodup_cons.mp hnd).1 (h ▸ hc ▸ hx)
        exact hother x (List.mem_cons_of_mem a hx) hne
      simp only [List.map_cons, List.sum_cons]
      rw [sumMap_congr hrest, ← h]
      simp [add_comm, add_left_comm, add_assoc]
    · have hna : a ≠ u := fun hc => (List.nodup_cons.mp hnd).1 (hc ▸ h)
      simp only [List.map_cons, List.sum_cons]
      rw [hother a (List.mem_cons_self a rest) hna]
      rw [add_assoc, ih h (List.nodup_cons.mp hnd).2
        (fun x hx hne => hother x (List.mem_cons_of_mem a hx) hne), ← add_assoc]

theorem spliceRemove_erase {l : List Nat} {u : Nat} (hu : u ∈ l) :
    spliceRemove l u = l.erase u := by
  induction l with
  | nil => simp at hu
  | cons a rest ih =>
    by_cases ha : a = u
    · subst ha
      rw [spliceRemove, findIdxP, if_pos (by simp)]
      simp [List.erase_cons_head]
    · rw [spliceRemove, findIdxP, if_neg (by simpa using ha)]
      have hur : u ∈ rest := by
        rcases List.mem_cons.mp hu with h | h
        · exact absurd h.symm ha
        · exact h
      have hrec := ih hur
      rw [spliceRemove] at hrec
      cases hr : findIdxP (fun x => x == u) rest with
      | some i =>
        rw [hr] at hrec
        rw [List.erase_cons_tail (by simpa using ha)]
        simpa [List.eraseIdx] using congrArg (List.cons a) hrec
      | none =>
        exfalso
        have hfa := findIdxP_none hr u hur
        simp at hfa

theorem getD_mem {l : List α} {i : Nat} {d : α} (h : i < l.length) :
    l.getD i d ∈ l := by
  induction l generalizing i with
  | nil => simp at h
  | cons a rest ih =>
    cases i with
    | zero => exact List.mem_cons_self a rest
    | succ j => exact List.mem_cons_of_mem a (ih (by simpa using h))

/-! ## Severity predicate lemmas -/

theorem countedSev_bool (sev : Severity) :
    ((sev != Severity.off && sev != Severity.default) = true) ↔
      (sev ≠ Severity.off ∧ sev ≠ Severity.default) := by
  cases sev <;> simp

theorem severity_pred_agree (sev : Severity) :
    (sev = Severity.error ∨ sev = Severity.warning) ↔
      (sev ≠ Severity.off ∧ sev ≠ Severity.default) := by
  cases sev <;> simp

/-! ## Category-level characterization lemmas -/

theorem getHintByName_eq (c : CategoryResult) (nm : String) :
    c.getHintByName nm =
      match mapGet c.cache (toLowerCase nm) with
      | some i => (some i, c)
      | none =>
        match findIdxP (fun hi => toLowerCase hi.name == toLowerCase nm) c.hints with
        | some i => (some i, { c with cache := mapSet c.cache (toLowerCase nm) i })
        | none => (none, c) := rfl

theorem getHintByName_spec (c : CategoryResult) (nm : String) (hc : c.CacheOk) :
    (c.getHintByName nm).2.hints = c.hints ∧
    (c.getHintByName nm).2.passed = c.passed ∧
    (c.getHintByName nm).2.hintsCount = c.hintsCount ∧
    (c.getHintByName nm).2.name = c.name ∧
    (c.getHintByName nm).2.url = c.url ∧
    (c.getHintByName nm).2.isScanner = c.isScanner ∧
    (c.getHintByName nm).2.CacheOk ∧
    (∀ i, (c.getHintByName nm).1 = some i → i < c.hints.length ∧
        toLowerCase (c.hints.getD i default).name = toLowerCase nm) ∧
    ((c.getHintByName nm).1 = none → (c.getHintByName nm).2 = c ∧
        ∀ h ∈ c.hints, toLowerCase h.name ≠ toLowerCase nm) := by
  rw [getHintByName_eq]
  cases hg : mapGet c.cache (toLowerCase nm) with
  | some i =>
    obtain ⟨hlt, hname⟩ := hc _ (mapGet_some_mem hg)
    refine ⟨rfl, rfl, rfl, rfl, rfl, rfl, hc, ?_, by simp⟩
    intro j hj
    have hj2 : i = j := by injection hj
    subst hj2
    exact ⟨hlt, hname⟩
  | none =>
    cases hf : findIdxP (fun hi => toLowerCase hi.name == toLowerCase nm) c.hints with
    | some i =>
      obtain ⟨hlt, hp⟩ := findIdxP_some default hf
      rw [beq_iff_eq] at hp
      refine ⟨rfl, rfl, rfl, rfl, rfl, rfl, ?_, ?_, by simp⟩
      · intro e he
        rcases mem_mapSet he with he | he
        · subst he
          exact ⟨hlt, hp⟩
        · exact hc e he
      · intro j hj
        have hj2 : i = j := by injection hj
        subst hj2
        exact ⟨hlt, hp⟩
    | none =>
      refine ⟨rfl, rfl, rfl, rfl, rfl, rfl, hc, by simp, fun _ => ⟨rfl, ?_⟩⟩
      intro h hh hcontra
      have := findIdxP_none hf h hh
      rw [hcontra] at this
      simp at this

theorem countedProblems_addProblem (h : HintResult) (p : Problem) :
    (h.addProblem p).countedProblems = h.countedProblems +
      (if p.severity ≠ Severity.off ∧ p.severity ≠ Severity.default then 1 else 0) ∧
    (h.addProblem p).problems.length = h.problems.length + 1 ∧
    (h.addProblem p).name = h.name := by
  refine ⟨?_, by simp [HintResult.addProblem], rfl⟩
  unfold HintResult.countedProblems HintResult.addProblem
  simp only [List.filter_append, List.length_append]
  by_cases hs : p.severity ≠ Severity.off ∧ p.severity ≠ Severity.default
  · rw [if_pos hs]
    have hb : (p.severity != Severity.off && p.severity != Severity.default) = true :=
      (countedSev_bool p.severity).mpr hs
    simp [List.filter, hb]
  · rw [if_neg hs]
    have hb : (p.severity != Severity.off && p.severity != Severity.default) = false := by
      rcases Bool.eq_false_or_eq_true
          (p.severity != Severity.off && p.severity != Severity.default) with hb | hb
      · exact absurd ((countedSev_bool p.severity).mp hb) hs
      · exact hb
    simp [List.filter, hb]

theorem hintMake_spec (tps : String → Option ThirdPartyInfo) (nm st u : String)
    (sc : Bool) :
    (HintResult.make tps nm st u sc).problems = [] ∧
    (HintResult.make tps nm st u sc).count = 0 ∧
    (HintResult.make tps nm st u sc).name = nm ∧
    (HintResult.make tps nm st u sc).countedProblems = 0 :=
  ⟨rfl, rfl, rfl, rfl⟩

theorem countedTotal_eq (c : CategoryResult) :
    c.countedTotal = (c.hints.map HintResult.countedProblems).sum +
      (c.passed.map HintResult.countedProblems).sum := by
  unfold CategoryResult.countedTotal
  rw [List.map_append, List.sum_append]

theorem problemTotal_eq (c : CategoryResult) :
    c.problemTotal = (c.hints.map (fun h => h.problems.length)).sum +
      (c.passed.map (fun h => h.problems.length)).sum := by
  unfold CategoryResult.problemTotal
  rw [List.map_append, List.sum_append]

theorem categoryAddProblem_spec (env : Env) (c : CategoryResult) (p : Problem)
    (hc : c.Inv) :
    (CategoryResult.addProblem env c p).Inv ∧
    (CategoryResult.addProblem env c p).name = c.name ∧
    (CategoryResult.addProblem env c p).passed = c.passed ∧
    (CategoryResult.addProblem env c p).hintsCount = c.hintsCount +
      (if p.severity ≠ Severity.off ∧ p.severity ≠ Severity.default then 1 else 0) ∧
    (CategoryResult.addProblem env c p).problemTotal = c.problemTotal + 1 ∧
    (∃ h2 ∈ (CategoryResult.addProblem env c p).hints,
        toLowerCase h2.name = toLowerCase p.hintId ∧ h2.problems.getLast? = some p) := by
  obtain ⟨hcache, hcount⟩ := hc
  obtain ⟨hh, hpa, hcnt, hnm, hurl, hsc, hck, hsome, hnone⟩ :=
    getHintByName_spec c p.hintId hcache
  unfold CategoryResult.addProblem
  generalize hr : c.getHintByName p.hintId = r at hh hpa hcnt hnm hurl hsc hck hsome hnone ⊢
  obtain ⟨r1, c1⟩ := r
  dsimp only at hh hpa hcnt hnm hurl hsc hck hsome hnone
  cases r1 with
  | some i =>
    obtain ⟨hilt, hiname⟩ := hsome i rfl
    have hilt1 : i < c1.hints.length := by rw [hh]; exact hilt
    obtain ⟨hyc, hyl, hyn⟩ := countedProblems_addProblem (c1.hints.getD i default) p
    have hck2 : ∀ cc : CategoryResult,
        cc.hints = c1.hints.set i ((c1.hints.getD i default).addProblem p) →
        cc.cache = c1.cache → cc.CacheOk := by
      intro cc h1 h2 e he
      rw [h2] at he
      obtain ⟨helt, hename⟩ := hck e he
      constructor
      · rw [h1, List.length_set]
        exact helt
      · rw [h1]
        by_cases hei : e.2 = i
        · rw [hei, getD_set_self hilt1, hyn]
          rw [hei] at hename
          exact hename
        · rw [getD_set_ne hei]
          exact hename
    have hct2 : ∀ cc : CategoryResult,
        cc.hints = c1.hints.set i ((c1.hints.getD i default).addProblem p) →
        cc.passed = c1.passed →
        cc.countedTotal = c.countedTotal +
          (if p.severity ≠ Severity.off ∧ p.severity ≠ Severity.default then 1 else 0) := by
      intro cc h1 h2
      rw [countedTotal_eq cc, countedTotal_eq c, h1, h2, hpa, hh]
      have hsum := sumMap_set (f := HintResult.countedProblems)
        (x := (c.hints.getD i default).addProblem p) default (l := c.hints) (i := i) hilt
      rw [hh] at hyc
      omega
    have hpt2 : ∀ cc : CategoryResult,
        cc.hints = c1.hints.set i ((c1.hints.getD i default).addProblem p) →
        cc.passed = c1.passed → cc.problemTotal = c.problemTotal + 1 := by
      intro cc h1 h2
      rw [problemTotal_eq cc, problemTotal_eq c, h1, h2, hpa, hh]
      have hsum0 := sumMap_set (f := fun h : HintResult => h.problems.length)
        (x := (c.hints.getD i default).addProblem p) default (l := c.hints) (i := i) hilt
      have hsum : ((c.hints.set i ((c.hints.getD i default).addProblem p)).map
            (fun h => h.problems.length)).sum + (c.hints.getD i default).problems.length =
          (c.hints.map (fun h => h.problems.length)).sum +
            ((c.hints.getD i default).addProblem p).problems.length := by
        simpa using hsum0
      rw [hh] at hyl
      omega
    have hex2 : ∃ h2 ∈ c1.hints.set i ((c1.hints.getD i default).addProblem p),
        toLowerCase h2.name = toLowerCase p.hintId ∧
          h2.problems.getLast? = some p := by
      refine ⟨(c1.hints.getD i default).addProblem p, ?_, ?_, ?_⟩
      · exact mem_set_self hilt1
      · rw [hyn, hh]
        exact hiname
      · show ((c1.hints.getD i default).problems ++ [p]).getLast? = some p
        simp
    dsimp only
    by_cases hsev : p.severity ≠ Severity.off ∧ p.severity ≠ Severity.default
    · rw [if_pos hsev]
      dsimp only
      refine ⟨⟨hck2 _ rfl rfl, ?_⟩, hnm, hpa, ?_, hpt2 _ rfl rfl, hex2⟩
      · have hctr := hct2
          { c1 with
            hintsCount := c1.hintsCount + 1
            hints := c1.hints.set i ((c1.hints.getD i default).addProblem p) }
          rfl rfl
        rw [hctr, if_pos hsev]
        show c1.hintsCount + 1 = c.countedTotal + 1
        rw [hcnt, hcount]
      · rw [if_pos hsev]
        show c1.hintsCount + 1 = c.hintsCount + 1
        rw [hcnt]
    · rw [if_neg hsev]
      refine ⟨⟨hck2 _ rfl rfl, ?_⟩, hnm, hpa, ?_, hpt2 _ rfl rfl, hex2⟩
      · have hctr := hct2
          { c1 with
            hints := c1.hints.set i ((c1.hints.getD i default).addProblem p) }
          rfl rfl
        rw [hctr, if_neg hsev]
        show c1.hintsCount = c.countedTotal + 0
        rw [hcnt, hcount, Nat.add_zero]
      · rw [if_neg hsev]
        show c1.hintsCount = c.hintsCount + 0
        rw [hcnt, Nat.add_zero]
  | none =>
    obtain ⟨hc1, hnomatch⟩ := hnone rfl
    subst hc1
    dsimp only
    obtain ⟨hmp, hmc, hmn, hmcc⟩ := hintMake_spec env.thirdPartyServices p.hintId
      p.severity.name c1.url c1.isScanner
    obtain ⟨hyc, hyl, hyn⟩ := countedProblems_addProblem
      (HintResult.make env.thirdPartyServices p.hintId p.severity.name c1.url c1.isScanner) p
    have hyname : (HintResult.make env.thirdPartyServices p.hintId p.severity.name
        c1.url c1.isScanner |>.addProblem p).name = p.hintId := by
      rw [hyn, hmn]
    have hycount : (HintResult.make env.thirdPartyServices p.hintId p.severity.name
        c1.url c1.isScanner |>.addProblem p).countedProblems =
        (if p.severity ≠ Severity.off ∧ p.severity ≠ Severity.default then 1 else 0) := by
      rw [hyc, hmcc, Nat.zero_add]
    have hyprob : (HintResult.make env.thirdPartyServices p.hintId p.severity.name
        c1.url c1.isScanner |>.addProblem p).problems = [p] := by
      show (HintResult.make env.thirdPartyServices p.hintId p.severity.name
        c1.url c1.isScanner).problems ++ [p] = [p]
      rw [hmp]
      rfl
    have hck2 : ∀ cc : CategoryResult,
        cc.hints = c1.hints ++ [HintResult.make env.thirdPartyServices p.hintId
          p.severity.name c1.url c1.isScanner |>.addProblem p] →
        cc.cache = c1.cache → cc.CacheOk := by
      intro cc h1 h2 e he
      rw [h2] at he
      obtain ⟨helt, hename⟩ := hcache e he
      constructor
      · rw [h1, List.length_append]
        omega
      · rw [h1, getD_append_lt helt]
        exact hename
    have hct2 : ∀ cc : CategoryResult,
        cc.hints = c1.hints ++ [HintResult.make env.thirdPartyServices p.hintId
          p.severity.name c1.url c1.isScanner |>.addProblem p] →
        cc.passed = c1.passed →
        cc.countedTotal = c1.countedTotal +
          (if p.severity ≠ Severity.off ∧ p.severity ≠ Severity.default then 1 else 0) := by
      intro cc h1 h2
      rw [countedTotal_eq cc, countedTotal_eq c1, h1, h2]
      rw [List.map_append, List.sum_append]
      simp only [List.map_cons, List.map_nil, List.sum_cons, List.sum_nil]
      rw [hycount]
      omega
    have hpt2 : ∀ cc : CategoryResult,
        cc.hints = c1.hints ++ [HintResult.make env.thirdPartyServices p.hintId
          p.severity.name c1.url c1.isScanner |>.addProblem p] →
        cc.passed = c1.passed → cc.problemTotal = c1.problemTotal + 1 := by
      intro cc h1 h2
      rw [problemTotal_eq cc, problemTotal_eq c1, h1, h2]
      rw [List.map_append, List.sum_append]
      simp only [List.map_cons, List.map_nil, List.sum_cons, List.sum_nil]
      rw [hyprob]
      simp only [List.length_cons, List.length_nil]
      omega
    have hex2 : ∃ h2 ∈ c1.hints ++ [HintResult.make env.thirdPartyServices p.hintId
          p.severity.name c1.url c1.isScanner |>.addProblem p],
        toLowerCase h2.name = toLowerCase p.hintId ∧
          h2.problems.getLast? = some p := by
      refine ⟨HintResult.make env.thirdPartyServices p.hintId p.severity.name
        c1.url c1.isScanner |>.addProblem p, ?_, by rw [hyname], by rw [hyprob]; rfl⟩
      simp
    have hsetfix : ((c1.hints ++ [HintResult.make env.thirdPartyServices p.hintId
          p.severity.name c1.url c1.isScanner]).getD c1.hints.length default).addProblem p =
        (HintResult.make env.thirdPartyServices p.hintId p.severity.name
          c1.url c1.isScanner).addProblem p := by
      rw [getD_append_len]
    by_cases hsev : p.severity ≠ Severity.off ∧ p.severity ≠ Severity.default
    · rw [if_pos hsev]
      dsimp only
      rw [hsetfix, set_append_len]
      refine ⟨⟨hck2 _ rfl rfl, ?_⟩, rfl, rfl, ?_, hpt2 _ rfl rfl, hex2⟩
      · have hctr := hct2
          { c1 with
            hintsCount := c1.hintsCount + 1
            hints := c1.hints ++ [HintResult.make env.thirdPartyServices p.hintId
              p.severity.name c1.url c1.isScanner |>.addProblem p] }
          rfl rfl
        rw [hctr, if_pos hsev]
        show c1.hintsCount + 1 = c1.countedTotal + 1
        rw [hcount]
      · rw [if_pos hsev]
    · rw [if_neg hsev]
      dsimp only
      rw [hsetfix, set_append_len]
      refine ⟨⟨hck2 _ rfl rfl, ?_⟩, rfl, rfl, ?_, hpt2 _ rfl rfl, hex2⟩
      · have hctr := hct2
          { c1 with
            hints := c1.hints ++ [HintResult.make env.thirdPartyServices p.hintId
              p.severity.name c1.url c1.isScanner |>.addProblem p] }
          rfl rfl
        rw [hctr, if_neg hsev]
        show c1.hintsCount = c1.countedTotal + 0
        rw [hcount, Nat.add_zero]
      · rw [if_neg hsev]
        show c1.hintsCount = c1.hintsCount + 0
        rw [Nat.add_zero]

theorem inc_agree (sev : Severity) :
    ((if sev = Severity.error ∨ sev = Severity.warning then 1 else 0 : Int)) =
      ((if sev ≠ Severity.off ∧ sev ≠ Severity.default then 1 else 0 : Nat) : Int) := by
  cases sev <;> simp

/-! ## Root-level characterization lemmas -/

theorem getCategoryByName_eq (s : AnalysisResult) (nm : String) :
    s.getCategoryByName nm =
      match mapGet s.cache (toLowerCase nm) with
      | some uid => (some uid, s)
      | none =>
        match findP (fun uid => toLowerCase (s.heap.getD uid default).name == toLowerCase nm)
            s.categories with
        | some uid => (some uid, { s with cache := mapSet s.cache (toLowerCase nm) uid })
        | none => (none, s) := rfl

theorem getCategoryByName_spec (s : AnalysisResult) (nm : String) (hs : s.Inv) :
    (s.getCategoryByName nm).2.Inv ∧
    (s.getCategoryByName nm).2.heap = s.heap ∧
    (s.getCategoryByName nm).2.categories = s.categories ∧
    (s.getCategoryByName nm).2.hintsCount = s.hintsCount ∧
    (s.getCategoryByName nm).2.url = s.url ∧
    (s.getCategoryByName nm).2.isScanner = s.isScanner ∧
    (∀ uid, (s.getCategoryByName nm).1 = some uid → uid ∈ s.categories ∧
        toLowerCase (s.catOf uid).name = toLowerCase nm) ∧
    ((s.getCategoryByName nm).1 = none → (s.getCategoryByName nm).2 = s ∧
        ∀ uid ∈ s.categories, toLowerCase (s.catOf uid).name ≠ toLowerCase nm) := by
  obtain ⟨hbound, hnd, huniq, hcache, hsum, hcats⟩ := hs
  rw [getCategoryByName_eq]
  cases hg : mapGet s.cache (toLowerCase nm) with
  | some uid =>
    obtain ⟨hmem, hname⟩ := hcache _ (mapGet_some_mem hg)
    refine ⟨⟨hbound, hnd, huniq, hcache, hsum, hcats⟩, rfl, rfl, rfl, rfl, rfl, ?_, by simp⟩
    intro j hj
    have hj2 : uid = j := by injection hj
    subst hj2
    exact ⟨hmem, hname⟩
  | none =>
    cases hf : findP (fun uid => toLowerCase (s.heap.getD uid default).name == toLowerCase nm)
        s.categories with
    | some uid =>
      obtain ⟨hmem, hp⟩ := findP_some hf
      rw [beq_iff_eq] at hp
      refine ⟨⟨hbound, hnd, huniq, ?_, hsum, hcats⟩, rfl, rfl, rfl, rfl, rfl, ?_, by simp⟩
      · intro e he
        rcases mem_mapSet he with he | he
        · subst he
          exact ⟨hmem, hp⟩
        · exact hcache e he
      · intro j hj
        have hj2 : uid = j := by injection hj
        subst hj2
        exact ⟨hmem, hp⟩
    | none =>
      refine ⟨⟨hbound, hnd, huniq, hcache, hsum, hcats⟩, rfl, rfl, rfl, rfl, rfl, by simp,
        fun _ => ⟨rfl, ?_⟩⟩
      intro uid hu hcontra
      have hx := findP_none hf uid hu
      rw [show toLowerCase (s.heap.getD uid default).name = toLowerCase (s.catOf uid).name
        from rfl, hcontra] at hx
      simp at hx

theorem categoryMake_spec (env : Env) (nm u : String) (sc : Bool) (lang : Option String) :
    (CategoryResult.make env nm u sc lang).name = nm ∧
    (CategoryResult.make env nm u sc lang).hintsCount = 0 ∧
    (CategoryResult.make env nm u sc lang).hints = [] ∧
    (CategoryResult.make env nm u sc lang).passed = [] ∧
    (CategoryResult.make env nm u sc lang).cache = [] ∧
    (CategoryResult.make env nm u sc lang).Inv ∧
    (CategoryResult.make env nm u sc lang).problemTotal = 0 :=
  ⟨rfl, rfl, rfl, rfl, rfl,
    ⟨fun e he => absurd he (by simp [CategoryResult.make]),
     rfl⟩, rfl⟩

theorem rootAddProblem_spec (env : Env) (s : AnalysisResult) (p : Problem)
    (language : Option String) (hs : s.Inv) :
    (s.addProblem env p language).Inv ∧
    (s.addProblem env p language).hintsCount = s.hintsCount +
      (if p.severity = Severity.error ∨ p.severity = Severity.warning then 1 else 0) ∧
    (s.addProblem env p language).problemTotal = s.problemTotal + 1 ∧
    (∃ uid ∈ (s.addProblem env p language).categories,
        toLowerCase ((s.addProblem env p language).catOf uid).name = toLowerCase p.category ∧
        ∃ h2 ∈ ((s.addProblem env p language).catOf uid).hints,
          toLowerCase h2.name = toLowerCase p.hintId ∧ h2.problems.getLast? = some p) := by
  obtain ⟨hInv, hheap, hcats, hcount, hurl, hsc, hsome, hnone⟩ :=
    getCategoryByName_spec s p.category hs
  unfold AnalysisResult.addProblem
  generalize hr : s.getCategoryByName p.category = r at hInv hheap hcats hcount hurl hsc hsome hnone ⊢
  obtain ⟨r1, s1⟩ := r
  dsimp only at hInv hheap hcats hcount hurl hsc hsome hnone
  cases r1 with
  | some uid =>
    obtain ⟨hmem, hname⟩ := hsome uid rfl
    obtain ⟨hbound1, hnd1, huniq1, hcache1, hsum1, hcatsInv1⟩ := hInv
    have hmem1 : uid ∈ s1.categories := by rw [hcats]; exact hmem
    have huidlt : uid < s1.heap.length := hbound1 uid hmem1
    obtain ⟨hci, hcn, hcp, hcd, hcpt, hcex⟩ :=
      categoryAddProblem_spec env (s1.heap.getD uid default) p (by
        have := hcatsInv1 uid hmem1
        exact this)
    have hgf : ∀ v, v ≠ uid →
        (s1.heap.set uid (CategoryResult.addProblem env (s1.heap.getD uid default) p)).getD
          v default = s1.heap.getD v default := fun v hne => getD_set_ne hne
    have hguid : (s1.heap.set uid
          (CategoryResult.addProblem env (s1.heap.getD uid default) p)).getD uid default =
        CategoryResult.addProblem env (s1.heap.getD uid default) p := getD_set_self huidlt
    have hsumG : (s1.categories.map (fun v => (((s1.heap.set uid
          (CategoryResult.addProblem env (s1.heap.getD uid default) p)).getD v
            default).hintsCount : Int))).sum =
        (s1.categories.map (fun v => ((s1.heap.getD v default).hintsCount : Int))).sum +
          (if p.severity = Severity.error ∨ p.severity = Severity.warning then 1 else 0) := by
      have h0 := sumMap_elem_add (M := Int)
        (f := fun v => ((s1.heap.getD v default).hintsCount : Int))
        (g := fun v => (((s1.heap.set uid
          (CategoryResult.addProblem env (s1.heap.getD uid default) p)).getD v
            default).hintsCount : Int))
        hmem1 hnd1 (fun x _ hne => by simp only [hgf x hne])
      simp only at h0
      rw [hguid, hcd, Nat.cast_add, ← inc_agree] at h0
      omega
    have hsumP : (s1.categories.map (fun v => ((s1.heap.set uid
          (CategoryResult.addProblem env (s1.heap.getD uid default) p)).getD v
            default).problemTotal)).sum =
        (s1.categories.map (fun v => (s1.heap.getD v default).problemTotal)).sum + 1 := by
      have h0 := sumMap_elem_add (M := Nat)
        (f := fun v => (s1.heap.getD v default).problemTotal)
        (g := fun v => ((s1.heap.set uid
          (CategoryResult.addProblem env (s1.heap.getD uid default) p)).getD v
            default).problemTotal)
        hmem1 hnd1 (fun x _ hne => by simp only [hgf x hne])
      simp only at h0
      rw [hguid, hcpt] at h0
      omega
    have hnames : ∀ v ∈ s1.categories,
        toLowerCase ((s1.heap.set uid
          (CategoryResult.addProblem env (s1.heap.getD uid default) p)).getD v
            default).name = toLowerCase (s1.heap.getD v default).name := by
      intro v hv
      by_cases hvu : v = uid
      · subst hvu
        rw [hguid, hcn]
      · rw [hgf v hvu]
    have hmain : ∀ rec : AnalysisResult,
        rec.heap = s1.heap.set uid (CategoryResult.addProblem env
          (s1.heap.getD uid default) p) →
        rec.categories = s1.categories → rec.cache = s1.cache →
        ((∀ v ∈ rec.categories, v < rec.heap.length) ∧
         rec.categories.Nodup ∧
         (∀ v1 ∈ rec.categories, ∀ v2 ∈ rec.categories,
            toLowerCase (rec.catOf v1).name = toLowerCase (rec.catOf v2).name → v1 = v2) ∧
         (∀ e ∈ rec.cache, e.2 ∈ rec.categories ∧ toLowerCase (rec.catOf e.2).name = e.1) ∧
         (∀ v ∈ rec.categories, (rec.catOf v).Inv)) ∧
        rec.problemTotal = s.problemTotal + 1 ∧
        (∃ u2 ∈ rec.categories, toLowerCase (rec.catOf u2).name = toLowerCase p.category ∧
          ∃ h2 ∈ (rec.catOf u2).hints,
            toLowerCase h2.name = toLowerCase p.hintId ∧ h2.problems.getLast? = some p) := by
      intro rec h1 h2 h3
      have hrecCat : ∀ v, rec.catOf v = (s1.heap.set uid (CategoryResult.addProblem env
          (s1.heap.getD uid default) p)).getD v default := by
        intro v
        unfold AnalysisResult.catOf
        rw [h1]
      refine ⟨⟨?_, ?_, ?_, ?_, ?_⟩, ?_, ?_⟩
      · intro v hv
        rw [h1, List.length_set]
        rw [h2] at hv
        exact hbound1 v hv
      · rw [h2]
        exact hnd1
      · intro v1 hv1 v2 hv2 heq
        rw [h2] at hv1 hv2
        rw [hrecCat, hrecCat, hnames v1 hv1, hnames v2 hv2] at heq
        exact huniq1 v1 hv1 v2 hv2 heq
      · intro e he
        rw [h3] at he
        obtain ⟨he1, he2⟩ := hcache1 e he
        refine ⟨by rw [h2]; exact he1, ?_⟩
        rw [hrecCat, hnames e.2 he1]
        exact he2
      · intro v hv
        rw [h2] at hv
        rw [hrecCat]
        by_cases hvu : v = uid
        · subst hvu
          rw [hguid]
          exact hci
        · rw [hgf v hvu]
          exact hcatsInv1 v hv
      · show (rec.categories.map (fun v => (rec.catOf v).problemTotal)).sum = _
        have heq : ∀ v ∈ rec.categories, (rec.catOf v).problemTotal =
            ((s1.heap.set uid (CategoryResult.addProblem env
              (s1.heap.getD uid default) p)).getD v default).problemTotal := by
          intro v _
          rw [hrecCat]
        rw [sumMap_congr heq, h2, hsumP]
        have hsp : s.problemTotal =
            (s1.categories.map (fun v => (s1.heap.getD v default).problemTotal)).sum := by
          show (s.categories.map (fun v => (s.heap.getD v default).problemTotal)).sum = _
          rw [← hcats, ← hheap]
        rw [hsp]
      · refine ⟨uid, by rw [h2]; exact hmem1, ?_, ?_⟩
        · rw [hrecCat, hguid, hcn]
          show toLowerCase (s1.heap.getD uid default).name = _
          rw [hheap]
          exact hname
        · rw [hrecCat, hguid]
          exact hcex
    dsimp only
    by_cases hsev : p.severity = Severity.error ∨ p.severity = Severity.warning
    · rw [if_pos hsev]
      dsimp only
      obtain ⟨hstruct, hpt, hex⟩ := hmain
        { s1 with
          hintsCount := s1.hintsCount + 1
          heap := s1.heap.set uid (CategoryResult.addProblem env
            (s1.heap.getD uid default) p) }
        rfl rfl rfl
      obtain ⟨hb2, hn2, hu2, hc2, hcv2⟩ := hstruct
      refine ⟨⟨hb2, hn2, hu2, hc2, ?_, hcv2⟩, ?_, hpt, hex⟩
      · show s1.hintsCount + 1 = _
        show _ = (s1.categories.map (fun v => (((s1.heap.set uid
            (CategoryResult.addProblem env (s1.heap.getD uid default) p)).getD v
              default).hintsCount : Int))).sum
        rw [hsumG, if_pos hsev]
        have hs1 : s1.hintsCount = (s1.categories.map
            (fun v => ((s1.heap.getD v default).hintsCount : Int))).sum := hsum1
        omega
      · show s1.hintsCount + 1 = _
        rw [if_pos hsev, hcount]
    · rw [if_neg hsev]
      obtain ⟨hstruct, hpt, hex⟩ := hmain
        { s1 with
          heap := s1.heap.set uid (CategoryResult.addProblem env
            (s1.heap.getD uid default) p) }
        rfl rfl rfl
      obtain ⟨hb2, hn2, hu2, hc2, hcv2⟩ := hstruct
      refine ⟨⟨hb2, hn2, hu2, hc2, ?_, hcv2⟩, ?_, hpt, hex⟩
      · show s1.hintsCount = _
        show _ = (s1.categories.map (fun v => (((s1.heap.set uid
            (CategoryResult.addProblem env (s1.heap.getD uid default) p)).getD v
              default).hintsCount : Int))).sum
        rw [hsumG, if_neg hsev]
        have hs1 : s1.hintsCount = (s1.categories.map
            (fun v => ((s1.heap.getD v default).hintsCount : Int))).sum := hsum1
        omega
      · show s1.hintsCount = _
        rw [if_neg hsev, hcount]
        omega
  | none =>
    obtain ⟨hs1, hnomatch⟩ := hnone rfl
    subst hs1
    obtain ⟨hbound1, hnd1, huniq1, hcache1, hsum1, hcatsInv1⟩ := hInv
    obtain ⟨hmkn, hmkc, hmkh, hmkp, hmkcache, hmkInv, hmkpt⟩ :=
      categoryMake_spec env p.category s1.url s1.isScanner language
    obtain ⟨hci, hcn, hcp, hcd, hcpt, hcex⟩ :=
      categoryAddProblem_spec env
        (CategoryResult.make env p.category s1.url s1.isScanner language) p hmkInv
    dsimp only
    have hsetfix : ((s1.heap ++ [CategoryResult.make env p.category s1.url
          s1.isScanner language]).getD s1.heap.length default) =
        CategoryResult.make env p.category s1.url s1.isScanner language := getD_append_len
    have hgf : ∀ v, v < s1.heap.length →
        (s1.heap ++ [CategoryResult.addProblem env (CategoryResult.make env p.category
          s1.url s1.isScanner language) p]).getD v default = s1.heap.getD v default :=
      fun v hv => getD_append_lt hv
    have hglen : (s1.heap ++ [CategoryResult.addProblem env (CategoryResult.make env
        p.category s1.url s1.isScanner language) p]).getD s1.heap.length default =
        CategoryResult.addProblem env (CategoryResult.make env p.category s1.url
          s1.isScanner language) p := getD_append_len
    have hfresh : s1.heap.length ∉ s1.categories := by
      intro hin
      exact absurd (hbound1 _ hin) (by omega)
    have hmain : ∀ rec : AnalysisResult,
        rec.heap = s1.heap ++ [CategoryResult.addProblem env (CategoryResult.make env
          p.category s1.url s1.isScanner language) p] →
        rec.categories = s1.categories ++ [s1.heap.length] → rec.cache = s1.cache →
        ((∀ v ∈ rec.categories, v < rec.heap.length) ∧
         rec.categories.Nodup ∧
         (∀ v1 ∈ rec.categories, ∀ v2 ∈ rec.categories,
            toLowerCase (rec.catOf v1).name = toLowerCase (rec.catOf v2).name → v1 = v2) ∧
         (∀ e ∈ rec.cache, e.2 ∈ rec.categories ∧ toLowerCase (rec.catOf e.2).name = e.1) ∧
         (∀ v ∈ rec.categories, (rec.catOf v).Inv)) ∧
        rec.problemTotal = s1.problemTotal + 1 ∧
        (∃ u2 ∈ rec.categories, toLowerCase (rec.catOf u2).name = toLowerCase p.category ∧
          ∃ h2 ∈ (rec.catOf u2).hints,
            toLowerCase h2.name = toLowerCase p.hintId ∧ h2.problems.getLast? = some p) := by
      intro rec h1 h2 h3
      have hrecCat : ∀ v, rec.catOf v = (s1.heap ++ [CategoryResult.addProblem env
          (CategoryResult.make env p.category s1.url s1.isScanner language) p]).getD
            v default := by
        intro v
        unfold AnalysisResult.catOf
        rw [h1]
      have hnewname : toLowerCase (CategoryResult.addProblem env (CategoryResult.make env
          p.category s1.url s1.isScanner language) p).name = toLowerCase p.category := by
        rw [hcn, hmkn]
      refine ⟨⟨?_, ?_, ?_, ?_, ?_⟩, ?_, ?_⟩
      · intro v hv
        rw [h1, List.length_append]
        rw [h2] at hv
        rcases List.mem_append.mp hv with hv | hv
        · have := hbound1 v hv
          simp only [List.length_cons, List.length_nil]
          omega
        · have : v = s1.heap.length := by simpa using hv
          simp only [List.length_cons, List.length_nil]
          omega
      · rw [h2, List.nodup_append]
        refine ⟨hnd1, by simp, ?_⟩
        intro a ha hb
        have hab : a = s1.heap.length := by simpa using hb
        subst hab
        exact hfresh ha
      · intro v1 hv1 v2 hv2 heq
        rw [h2] at hv1 hv2
        rw [hrecCat v1, hrecCat v2] at heq
        rcases List.mem_append.mp hv1 with hv1 | hv1 <;>
          rcases List.mem_append.mp hv2 with hv2 | hv2
        · rw [hgf v1 (hbound1 v1 hv1), hgf v2 (hbound1 v2 hv2)] at heq
          exact huniq1 v1 hv1 v2 hv2 heq
        · have hv2e : v2 = s1.heap.length := by simpa using hv2
          subst hv2e
          rw [hgf v1 (hbound1 v1 hv1), hglen, hnewname] at heq
          exact absurd heq (hnomatch v1 hv1)
        · have hv1e : v1 = s1.heap.length := by simpa using hv1
          subst hv1e
          rw [hglen, hgf v2 (hbound1 v2 hv2), hnewname] at heq
          exact absurd heq.symm (hnomatch v2 hv2)
        · have hv1e : v1 = s1.heap.length := by simpa using hv1
          have hv2e : v2 = s1.heap.length := by simpa using hv2
          rw [hv1e, hv2e]
      · intro e he
        rw [h3] at he
        obtain ⟨he1, he2⟩ := hcache1 e he
        refine ⟨by rw [h2]; exact List.mem_append_left _ he1, ?_⟩
        rw [hrecCat, hgf e.2 (hbound1 e.2 he1)]
        exact he2
      · intro v hv
        rw [h2] at hv
        rw [hrecCat]
        rcases List.mem_append.mp hv with hv | hv
        · rw [hgf v (hbound1 v hv)]
          exact hcatsInv1 v hv
        · have hve : v = s1.heap.length := by simpa using hv
          subst hve
          rw [hglen]
          exact hci
      · show (rec.categories.map (fun v => (rec.catOf v).problemTotal)).sum = _
        have heq2 : ∀ v ∈ rec.categories, (rec.catOf v).problemTotal =
            ((s1.heap ++ [CategoryResult.addProblem env (CategoryResult.make env
              p.category s1.url s1.isScanner language) p]).getD v default).problemTotal := by
          intro v _
          rw [hrecCat]
        rw [sumMap_congr heq2, h2, List.map_append, List.sum_append]
        simp only [List.map_cons, List.map_nil, List.sum_cons, List.sum_nil]
        rw [hglen, hcpt, hmkpt]
        have hold : ∀ v ∈ s1.categories,
            ((s1.heap ++ [CategoryResult.addProblem env (CategoryResult.make env
              p.category s1.url s1.isScanner language) p]).getD v default).problemTotal =
            (s1.heap.getD v default).problemTotal := by
          intro v hv
          rw [hgf v (hbound1 v hv)]
        rw [sumMap_congr hold]
        show _ = (s1.categories.map (fun v => (s1.heap.getD v default).problemTotal)).sum + 1
        omega
      · refine ⟨s1.heap.length, by rw [h2]; exact List.mem_append_right _ (by simp), ?_, ?_⟩
        · rw [hrecCat, hglen]
          exact hnewname
        · rw [hrecCat, hglen]
          exact hcex
    by_cases hsev : p.severity = Severity.error ∨ p.severity = Severity.warning
    · rw [if_pos hsev]
      dsimp only
      rw [hsetfix, set_append_len]
      obtain ⟨hstruct, hpt, hex⟩ := hmain
        { s1 with
          hintsCount := s1.hintsCount + 1
          heap := s1.heap ++ [CategoryResult.addProblem env (CategoryResult.make env
            p.category s1.url s1.isScanner language) p]
          categories := s1.categories ++ [s1.heap.length] }
        rfl rfl rfl
      obtain ⟨hb2, hn2, hu2, hc2, hcv2⟩ := hstruct
      refine ⟨⟨hb2, hn2, hu2, hc2, ?_, hcv2⟩, ?_, hpt, hex⟩
      · show s1.hintsCount + 1 = _
        show _ = ((s1.categories ++ [s1.heap.length]).map (fun v => (((s1.heap ++
            [CategoryResult.addProblem env (CategoryResult.make env p.category s1.url
              s1.isScanner language) p]).getD v default).hintsCount : Int))).sum
        rw [List.map_append, List.sum_append]
        simp only [List.map_cons, List.map_nil, List.sum_cons, List.sum_nil]
        rw [hglen, hcd, hmkc]
        have hold : ∀ v ∈ s1.categories,
            (((s1.heap ++ [CategoryResult.addProblem env (CategoryResult.make env
              p.category s1.url s1.isScanner language) p]).getD v default).hintsCount : Int) =
            ((s1.heap.getD v default).hintsCount : Int) := by
          intro v hv
          rw [hgf v (hbound1 v hv)]
        rw [sumMap_congr hold]
        have hs1 : s1.hintsCount = (s1.categories.map
            (fun v => ((s1.heap.getD v default).hintsCount : Int))).sum := hsum1
        rw [Nat.zero_add, ← inc_agree, if_pos hsev]
        omega
      · show s1.hintsCount + 1 = _
        rw [if_pos hsev]
    · rw [if_neg hsev]
      dsimp only
      rw [hsetfix, set_append_len]
      obtain ⟨hstruct, hpt, hex⟩ := hmain
        { s1 with
          heap := s1.heap ++ [CategoryResult.addProblem env (CategoryResult.make env
            p.category s1.url s1.isScanner language) p]
          categories := s1.categories ++ [s1.heap.length] }
        rfl rfl rfl
      obtain ⟨hb2, hn2, hu2, hc2, hcv2⟩ := hstruct
      refine ⟨⟨hb2, hn2, hu2, hc2, ?_, hcv2⟩, ?_, hpt, hex⟩
      · show s1.hintsCount = _
        show _ = ((s1.categories ++ [s1.heap.length]).map (fun v => (((s1.heap ++
            [CategoryResult.addProblem env (CategoryResult.make env p.category s1.url
              s1.isScanner language) p]).getD v default).hintsCount : Int))).sum
        rw [List.map_append, List.sum_append]
        simp only [List.map_cons, List.map_nil, List.sum_cons, List.sum_nil]
        rw [hglen, hcd, hmkc]
        have hold : ∀ v ∈ s1.categories,
            (((s1.heap ++ [CategoryResult.addProblem env (CategoryResult.make env
              p.category s1.url s1.isScanner language) p]).getD v default).hintsCount : Int) =
            ((s1.heap.getD v default).hintsCount : Int) := by
          intro v hv
          rw [hgf v (hbound1 v hv)]
        rw [sumMap_congr hold]
        have hs1 : s1.hintsCount = (s1.categories.map
            (fun v => ((s1.heap.getD v default).hintsCount : Int))).sum := hsum1
        rw [Nat.zero_add, ← inc_agree, if_neg hsev]
        omega
      · show s1.hintsCount = _
        rw [if_neg hsev]
        omega

theorem findP_eq_none {p : α → Bool} {l : List α} (h : ∀ a ∈ l, p a = false) :
    findP p l = none := by
  induction l with
  | nil => rfl
  | cons a rest ih =>
    rw [findP, if_neg (by simp [h a (List.mem_cons_self a rest)])]
    exact ih fun x hx => h x (List.mem_cons_of_mem a hx)

theorem addCategory_spec (env : Env) (s : AnalysisResult) (nm : String)
    (language : Option String) (hs : s.Inv) :
    (s.addCategory env nm language).Inv ∧
    (s.addCategory env nm language).hintsCount = s.hintsCount ∧
    (s.addCategory env nm language).problemTotal = s.problemTotal := by
  obtain ⟨hInv, hheap, hcats, hcount, hurl, hsc, hsome, hnone⟩ :=
    getCategoryByName_spec s nm hs
  unfold AnalysisResult.addCategory
  generalize hr : s.getCategoryByName nm = r at hInv hheap hcats hcount hurl hsc hsome hnone ⊢
  obtain ⟨r1, s1⟩ := r
  dsimp only at hInv hheap hcats hcount hurl hsc hsome hnone
  cases r1 with
  | some uid =>
    dsimp only
    refine ⟨hInv, hcount, ?_⟩
    show (s1.categories.map (fun v => (s1.heap.getD v default).problemTotal)).sum = _
    rw [hcats, hheap]
    rfl
  | none =>
    obtain ⟨hs1, hnomatch⟩ := hnone rfl
    subst hs1
    obtain ⟨hbound1, hnd1, huniq1, hcache1, hsum1, hcatsInv1⟩ := hInv
    obtain ⟨hmkn, hmkc, hmkh, hmkp, hmkcache, hmkInv, hmkpt⟩ :=
      categoryMake_spec env nm s1.url s1.isScanner language
    dsimp only
    have hgf : ∀ v, v < s1.heap.length →
        (s1.heap ++ [CategoryResult.make env nm s1.url s1.isScanner language]).getD v
          default = s1.heap.getD v default := fun v hv => getD_append_lt hv
    have hglen : (s1.heap ++ [CategoryResult.make env nm s1.url s1.isScanner
        language]).getD s1.heap.length default =
        CategoryResult.make env nm s1.url s1.isScanner language := getD_append_len
    have hfresh : s1.heap.length ∉ s1.categories := by
      intro hin
      exact absurd (hbound1 _ hin) (by omega)
    have hrecCat : ∀ v, ({ s1 with
        heap := s1.heap ++ [CategoryResult.make env nm s1.url s1.isScanner language]
        categories := s1.categories ++ [s1.heap.length] } : AnalysisResult).catOf v =
        (s1.heap ++ [CategoryResult.make env nm s1.url s1.isScanner language]).getD v
          default := fun v => rfl
    have hnewname : toLowerCase ((s1.heap ++ [CategoryResult.make env nm s1.url
        s1.isScanner language]).getD s1.heap.length default).name = toLowerCase nm := by
      rw [hglen, hmkn]
    refine ⟨⟨?_, ?_, ?_, ?_, ?_, ?_⟩, rfl, ?_⟩
    · intro v hv
      show v < (s1.heap ++ [CategoryResult.make env nm s1.url s1.isScanner language]).length
      rw [List.length_append]
      rcases List.mem_append.mp hv with hv | hv
      · have := hbound1 v hv
        simp only [List.length_cons, List.length_nil]
        omega
      · have : v = s1.heap.length := by simpa using hv
        simp only [List.length_cons, List.length_nil]
        omega
    · show (s1.categories ++ [s1.heap.length]).Nodup
      rw [List.nodup_append]
      refine ⟨hnd1, by simp, ?_⟩
      intro a ha hb
      have hab : a = s1.heap.length := by simpa using hb
      subst hab
      exact hfresh ha
    · intro v1 hv1 v2 hv2 heq
      rw [hrecCat v1, hrecCat v2] at heq
      rcases List.mem_append.mp hv1 with hv1 | hv1 <;>
        rcases List.mem_append.mp hv2 with hv2 | hv2
      · rw [hgf v1 (hbound1 v1 hv1), hgf v2 (hbound1 v2 hv2)] at heq
        exact huniq1 v1 hv1 v2 hv2 heq
      · have hv2e : v2 = s1.heap.length := by simpa using hv2
        subst hv2e
        rw [hgf v1 (hbound1 v1 hv1), hnewname] at heq
        exact absurd heq (hnomatch v1 hv1)
      · have hv1e : v1 = s1.heap.length := by simpa using hv1
        subst hv1e
        rw [hnewname, hgf v2 (hbound1 v2 hv2)] at heq
        exact absurd heq.symm (hnomatch v2 hv2)
      · have hv1e : v1 = s1.heap.length := by simpa using hv1
        have hv2e : v2 = s1.heap.length := by simpa using hv2
        rw [hv1e, hv2e]
    · intro e he
      obtain ⟨he1, he2⟩ := hcache1 e he
      refine ⟨List.mem_append_left _ he1, ?_⟩
      rw [hrecCat, hgf e.2 (hbound1 e.2 he1)]
      exact he2
    · show s1.hintsCount = ((s1.categories ++ [s1.heap.length]).map (fun v =>
        (((s1.heap ++ [CategoryResult.make env nm s1.url s1.isScanner language]).getD v
          default).hintsCount : Int))).sum
      rw [List.map_append, List.sum_append]
      simp only [List.map_cons, List.map_nil, List.sum_cons, List.sum_nil]
      rw [hglen, hmkc]
      have hold : ∀ v ∈ s1.categories,
          (((s1.heap ++ [CategoryResult.make env nm s1.url s1.isScanner language]).getD v
            default).hintsCount : Int) = ((s1.heap.getD v default).hintsCount : Int) := by
        intro v hv
        rw [hgf v (hbound1 v hv)]
      rw [sumMap_congr hold]
      have hs1 : s1.hintsCount = (s1.categories.map
          (fun v => ((s1.heap.getD v default).hintsCount : Int))).sum := hsum1
      omega
    · intro v hv
      rw [hrecCat]
      rcases List.mem_append.mp hv with hv | hv
      · rw [hgf v (hbound1 v hv)]
        exact hcatsInv1 v hv
      · have hve : v = s1.heap.length := by simpa using hv
        subst hve
        rw [hglen]
        exact hmkInv
    · show ((s1.categories ++ [s1.heap.length]).map (fun v =>
        ((s1.heap ++ [CategoryResult.make env nm s1.url s1.isScanner language]).getD v
          default).problemTotal)).sum = _
      rw [List.map_append, List.sum_append]
      simp only [List.map_cons, List.map_nil, List.sum_cons, List.sum_nil]
      rw [hglen, hmkpt]
      have hold : ∀ v ∈ s1.categories,
          ((s1.heap ++ [CategoryResult.make env nm s1.url s1.isScanner language]).getD v
            default).problemTotal = (s1.heap.getD v default).problemTotal := by
        intro v hv
        rw [hgf v (hbound1 v hv)]
      rw [sumMap_congr hold]
      show _ = (s1.categories.map (fun v => (s1.heap.getD v default).problemTotal)).sum
      omega

theorem removeCategory_spec (s : AnalysisResult) (nm : String) (hs : s.Inv) :
    (s.removeCategory nm).Inv ∧
    ((∀ uid ∈ s.categories, toLowerCase (s.catOf uid).name ≠ toLowerCase nm) →
        s.removeCategory nm = s) ∧
    (∀ uid ∈ s.categories, toLowerCase (s.catOf uid).name = toLowerCase nm →
        (s.removeCategory nm).hintsCount = s.hintsCount - ((s.catOf uid).hintsCount : Int) ∧
        (s.removeCategory nm).categories = s.categories.erase uid ∧
        uid ∉ (s.removeCategory nm).categories ∧
        (∀ e ∈ (s.removeCategory nm).cache, e.2 ≠ uid) ∧
        ((s.removeCategory nm).getCategoryByName nm).1 = none) := by
  have hsfull := hs
  obtain ⟨hsB, hsN, hsU, hsC, hsS, hsI⟩ := hsfull
  obtain ⟨hInv, hheap, hcats, hcount, hurl, hsc, hsome, hnone⟩ :=
    getCategoryByName_spec s (toLowerCase nm) hs
  rw [toLowerCase_idem] at hsome hnone
  unfold AnalysisResult.removeCategory
  dsimp only
  generalize hr : s.getCategoryByName (toLowerCase nm) = r at hInv hheap hcats hcount hurl hsc hsome hnone ⊢
  obtain ⟨r1, s1⟩ := r
  dsimp only at hInv hheap hcats hcount hurl hsc hsome hnone
  cases r1 with
  | none =>
    obtain ⟨hs1, hnomatch⟩ := hnone rfl
    subst hs1
    dsimp only
    exact ⟨hs, fun _ => rfl, fun uid hu hmatch => absurd hmatch (hnomatch uid hu)⟩
  | some uid0 =>
    obtain ⟨hmem0, hname0⟩ := hsome uid0 rfl
    obtain ⟨hbound1, hnd1, huniq1, hcache1, hsum1, hcatsInv1⟩ := hInv
    have hmem1 : uid0 ∈ s1.categories := by rw [hcats]; exact hmem0
    dsimp only
    rw [spliceRemove_erase hmem1]
    have hname1 : toLowerCase (s1.heap.getD uid0 default).name = toLowerCase nm := by
      have hx : s1.heap.getD uid0 default = s.catOf uid0 := by
        rw [hheap]
        rfl
      rw [hx]
      exact hname0
    have hcachene : ∀ e ∈ mapDel s1.cache (toLowerCase nm), e.2 ≠ uid0 := by
      intro e he hcontra
      obtain ⟨hein, hkey⟩ := mem_mapDel he
      obtain ⟨he1, he2⟩ := hcache1 e hein
      apply hkey
      rw [← he2, hcontra]
      exact hname1
    have herased : ∀ v ∈ s1.categories.erase uid0,
        v ∈ s1.categories ∧ v ≠ uid0 := by
      intro v hv
      obtain ⟨hne, hin⟩ := (List.Nodup.mem_erase_iff hnd1).mp hv
      exact ⟨hin, hne⟩
    refine ⟨⟨?_, ?_, ?_, ?_, ?_, ?_⟩, ?_, ?_⟩
    · intro v hv
      exact hbound1 v (herased v hv).1
    · exact List.Nodup.erase uid0 hnd1
    · intro v1 hv1 v2 hv2 heq
      exact huniq1 v1 (herased v1 hv1).1 v2 (herased v2 hv2).1 heq
    · intro e he
      obtain ⟨hein, hkey⟩ := mem_mapDel he
      obtain ⟨he1, he2⟩ := hcache1 e hein
      have hene : e.2 ≠ uid0 := hcachene e he
      exact ⟨(List.mem_erase_of_ne hene).mpr he1, he2⟩
    · show s1.hintsCount - ((s1.heap.getD uid0 default).hintsCount : Int) =
        ((s1.categories.erase uid0).map
          (fun v => ((s1.heap.getD v default).hintsCount : Int))).sum
      have hperm := ((List.perm_cons_erase hmem1).map
        (fun v => ((s1.heap.getD v default).hintsCount : Int))).sum_eq
      simp only [List.map_cons, List.sum_cons] at hperm
      have hs1 : s1.hintsCount = (s1.categories.map
          (fun v => ((s1.heap.getD v default).hintsCount : Int))).sum := hsum1
      omega
    · intro v hv
      exact hcatsInv1 v (herased v hv).1
    · intro hall
      exact absurd hname0 (hall uid0 hmem0)
    · intro uid hu hmatch
      have huid : uid = uid0 :=
        hsU uid hu uid0 hmem0 (hmatch.trans hname0.symm)
      subst huid
      refine ⟨?_, ?_, ?_, hcachene, ?_⟩
      · show s1.hintsCount - ((s1.heap.getD uid default).hintsCount : Int) = _
        rw [hcount, hheap]
        rfl
      · show s1.categories.erase uid = _
        rw [hcats]
      · show uid ∉ s1.categories.erase uid
        exact List.Nodup.not_mem_erase hnd1
      · have hfp : ∀ a ∈ s1.categories.erase uid,
            (toLowerCase (s1.heap.getD a default).name == toLowerCase nm) = false := by
          intro v hv
          obtain ⟨hvin, hvne⟩ := herased v hv
          have hvs : v ∈ s.categories := by rw [← hcats]; exact hvin
          by_cases hveq : toLowerCase (s1.heap.getD v default).name = toLowerCase nm
          · exfalso
            have hxv : s1.heap.getD v default = s.catOf v := by
              rw [hheap]
              rfl
            rw [hxv] at hveq
            exact hvne (hsU v hvs uid hmem0 (hveq.trans hname0.symm))
          · exact beq_eq_false_iff_ne.mpr hveq
        rw [getCategoryByName_eq]
        rw [show mapGet (mapDel s1.cache (toLowerCase nm)) (toLowerCase nm) = none from
          mapGet_none (fun e he => (mem_mapDel he).2)]
        rw [show findP (fun v => toLowerCase ((s1.heap.getD v default)).name ==
            toLowerCase nm) (s1.categories.erase uid) = none from
          findP_eq_none hfp]

theorem findIdxP_eq_none {p : α → Bool} {l : List α} (h : ∀ a ∈ l, p a = false) :
    findIdxP p l = none := by
  induction l with
  | nil => rfl
  | cons a rest ih =>
    rw [findIdxP, if_neg (by simp [h a (List.mem_cons_self a rest)])]
    rw [ih fun x hx => h x (List.mem_cons_of_mem a hx)]
    rfl

theorem make_fields (target : String) (options : FormatterOptions) :
    (AnalysisResult.make target options).categories = [] ∧
    (AnalysisResult.make target options).cache = [] ∧
    (AnalysisResult.make target options).hintsCount = 0 ∧
    (AnalysisResult.make target options).heap = [] := ⟨rfl, rfl, rfl, rfl⟩

theorem make_Inv (target : String) (options : FormatterOptions) :
    (AnalysisResult.make target options).Inv := by
  obtain ⟨h1, h2, h3, h4⟩ := make_fields target options
  refine ⟨?_, ?_, ?_, ?_, ?_, ?_⟩
  · rw [h1]
    intro u hu
    simp at hu
  · rw [h1]
    exact List.nodup_nil
  · rw [h1]
    intro u hu
    simp at hu
  · rw [h2]
    intro e he
    simp at he
  · rw [h3]
    show (0 : Int) = ((AnalysisResult.make target options).categories.map
      (fun uid => (((AnalysisResult.make target options).catOf uid).hintsCount : Int))).sum
    rw [h1]
    rfl
  · rw [h1]
    intro u hu
    simp at hu

theorem step_Inv (env : Env) (s : AnalysisResult) (op : AnalysisOp) (hs : s.Inv) :
    (s.step env op).Inv := by
  cases op with
  | addProblem p language => exact (rootAddProblem_spec env s p language hs).1
  | addCategory nm language => exact (addCategory_spec env s nm language hs).1
  | getCategory nm => exact (getCategoryByName_spec s nm hs).1
  | removeCategory nm => exact (removeCategory_spec s nm hs).1

theorem run_Inv (env : Env) (s : AnalysisResult) (ops : List AnalysisOp) (hs : s.Inv) :
    (AnalysisResult.run env s ops).Inv := by
  induction ops generalizing s with
  | nil => exact hs
  | cons op ops ih => exact ih _ (step_Inv env s op hs)

/-! ## C1: global count consistency -/

/-- C1: starting from a freshly constructed aggregate, after every sequence
of `addProblem` calls followed by any subset of `removeCategory` calls, the
root `hintsCount` equals the sum of the `hintsCount` of the categories
still present, and each category's `hintsCount` equals the number of
problems it holds whose severity is neither `off` nor `default`. -/
theorem C1_count_consistency (env : Env) (target : String) (options : FormatterOptions)
    (adds : List (Problem × Option String)) (rems : List String) :
    (AnalysisResult.run env (AnalysisResult.make target options)
      (adds.map (fun a => AnalysisOp.addProblem a.1 a.2) ++
        rems.map AnalysisOp.removeCategory)).hintsCount =
      (AnalysisResult.run env (AnalysisResult.make target options)
        (adds.map (fun a => AnalysisOp.addProblem a.1 a.2) ++
          rems.map AnalysisOp.removeCategory)).categoryCountSum ∧
    ∀ uid ∈ (AnalysisResult.run env (AnalysisResult.make target options)
        (adds.map (fun a => AnalysisOp.addProblem a.1 a.2) ++
          rems.map AnalysisOp.removeCategory)).categories,
      ((AnalysisResult.run env (AnalysisResult.make target options)
        (adds.map (fun a => AnalysisOp.addProblem a.1 a.2) ++
          rems.map AnalysisOp.removeCategory)).catOf uid).hintsCount =
      ((AnalysisResult.run env (AnalysisResult.make target options)
        (adds.map (fun a => AnalysisOp.addProblem a.1 a.2) ++
          rems.map AnalysisOp.removeCategory)).catOf uid).countedTotal := by
  have h := run_Inv env (AnalysisResult.make target options)
    (adds.map (fun a => AnalysisOp.addProblem a.1 a.2) ++
      rems.map AnalysisOp.removeCategory) (make_Inv target options)
  exact ⟨h.2.2.2.2.1, fun uid hu => (h.2.2.2.2.2 uid hu).2⟩

/-! ## C10: root cache coherence -/

/-- C10: after every sequence of `addProblem`, `addCategory`,
`getCategoryByName` and `removeCategory` calls, every entry of the root
name cache maps its (lower-cased) key to a category currently in
`categories` whose name lower-cases to that key; in particular
`getCategoryByName` never returns a removed category. -/
theorem C10_cache_coherence (env : Env) (target : String) (options : FormatterOptions)
    (ops : List AnalysisOp) (nm : String) :
    (∀ e ∈ (AnalysisResult.run env (AnalysisResult.make target options) ops).cache,
        e.2 ∈ (AnalysisResult.run env (AnalysisResult.make target options) ops).categories ∧
        toLowerCase ((AnalysisResult.run env (AnalysisResult.make target options)
          ops).catOf e.2).name = e.1) ∧
    (∀ uid, ((AnalysisResult.run env (AnalysisResult.make target options)
          ops).getCategoryByName nm).1 = some uid →
        uid ∈ (AnalysisResult.run env (AnalysisResult.make target options) ops).categories) := by
  have h := run_Inv env (AnalysisResult.make target options) ops (make_Inv target options)
  refine ⟨h.2.2.2.1, ?_⟩
  intro uid huid
  exact ((getCategoryByName_spec _ nm h).2.2.2.2.2.2.1 uid huid).1

/-! ## C4: removeCategory behaviour -/

/-- C4: on a state satisfying the engine invariant, `removeCategory` is a
no-op when no category matches the (case-insensitively compared) name;
otherwise it subtracts exactly the matching category's `hintsCount` from
the root total, removes the category from `categories`, evicts it from the
cache, and a subsequent `getCategoryByName` for that name is absent. -/
theorem C4_remove_category (s : AnalysisResult) (hs : s.Inv) (nm : String) :
    ((∀ uid ∈ s.categories, toLowerCase (s.catOf uid).name ≠ toLowerCase nm) →
        s.removeCategory nm = s) ∧
    (∀ uid ∈ s.categories, toLowerCase (s.catOf uid).name = toLowerCase nm →
        (s.removeCategory nm).hintsCount = s.hintsCount - ((s.catOf uid).hintsCount : Int) ∧
        (s.removeCategory nm).categories = s.categories.erase uid ∧
        uid ∉ (s.removeCategory nm).categories ∧
        (∀ e ∈ (s.removeCategory nm).cache, e.2 ≠ uid) ∧
        ((s.removeCategory nm).getCategoryByName nm).1 = none) := by
  obtain ⟨-, h2, h3⟩ := removeCategory_spec s nm hs
  exact ⟨h2, h3⟩

/-- C4 witness: a concrete aggregate with one counted problem in category
`Security`; removing it subtracts its count, removes it, and makes the
lookup absent. -/
theorem C4_witness :
    sW.Inv ∧
    (sW.removeCategory "Security").hintsCount = sW.hintsCount -
      ((sW.catOf 0).hintsCount : Int) ∧
    0 ∉ (sW.removeCategory "Security").categories ∧
    ((sW.removeCategory "Security").getCategoryByName "Security").1 = none :=
  have hInv : sW.Inv := run_Inv envT (AnalysisResult.make "https://example.com" optsT)
    [AnalysisOp.addProblem pW none] (make_Inv "https://example.com" optsT)
  have h := (C4_remove_category sW hInv "Security").2 0 (by decide) (by decide)
  ⟨hInv, h.1, h.2.2.1, h.2.2.2.2⟩

/-! ## C9: absent lookups return absent and leave state unchanged -/

/-- C9: on invariant-satisfying states, `getCategoryByName` and
`getHintByName` never fail for an absent name: when no category/rule
matches (in either rule collection), they return `none` and leave the
aggregate unchanged. -/
theorem C9_lookup_absent (s : AnalysisResult) (hs : s.Inv) (c : CategoryResult)
    (hc : c.Inv) (nm : String) :
    ((∀ uid ∈ s.categories, toLowerCase (s.catOf uid).name ≠ toLowerCase nm) →
        s.getCategoryByName nm = (none, s)) ∧
    ((∀ h ∈ c.hints ++ c.passed, toLowerCase h.name ≠ toLowerCase nm) →
        c.getHintByName nm = (none, c)) := by
  constructor
  · intro hall
    rw [getCategoryByName_eq]
    rw [show mapGet s.cache (toLowerCase nm) = none from mapGet_none ?_]
    rw [show findP (fun uid => toLowerCase (s.heap.getD uid default).name ==
        toLowerCase nm) s.categories = none from findP_eq_none ?_]
    · intro v hv
      exact beq_eq_false_iff_ne.mpr (hall v hv)
    · intro e he
      obtain ⟨he1, he2⟩ := hs.2.2.2.1 e he
      rw [← he2]
      exact hall e.2 he1
  · intro hall
    rw [getHintByName_eq]
    rw [show mapGet c.cache (toLowerCase nm) = none from mapGet_none ?_]
    rw [show findIdxP (fun hi => toLowerCase hi.name == toLowerCase nm) c.hints = none from
      findIdxP_eq_none ?_]
    · intro h hh
      exact beq_eq_false_iff_ne.mpr (hall h (List.mem_append_left _ hh))
    · intro e he
      obtain ⟨he1, he2⟩ := hc.1 e he
      rw [← he2]
      exact hall (c.hints.getD e.2 default) (List.mem_append_left _ (getD_mem he1))

/-- C9 witness: an empty aggregate and a concrete category with one rule
named `foo`: looking up the absent name `missing` returns `none` and the
state is returned unchanged. -/
theorem C9_witness :
    (AnalysisResult.make "https://example.com" optsT).getCategoryByName "missing" =
      (none, AnalysisResult.make "https://example.com" optsT) ∧
    cW2.getHintByName "missing" = (none, cW2) :=
  have h := C9_lookup_absent (AnalysisResult.make "https://example.com" optsT)
    (make_Inv "https://example.com" optsT) cW2 (by decide) "missing"
  ⟨h.1 (by decide), h.2 (by decide)⟩

/-! ## C7: the two counting predicates -/

/-- C7: `CategoryResult.addProblem` increments the category `hintsCount`
iff the severity is neither `off` nor `default` and always appends the
problem to the resolved rule (one problem is recorded, landing last in a
rule whose name matches the problem's `hintId`); `AnalysisResult.addProblem`
increments the root `hintsCount` iff the severity is `error` or `warning`
and always forwards the problem (the total number of recorded problems
grows by one). -/
theorem C7_counting_predicates (env : Env) (s : AnalysisResult) (hs : s.Inv)
    (c : CategoryResult) (hc : c.Inv) (p : Problem) (language : Option String) :
    (CategoryResult.addProblem env c p).hintsCount = c.hintsCount +
      (if p.severity ≠ Severity.off ∧ p.severity ≠ Severity.default then 1 else 0) ∧
    (CategoryResult.addProblem env c p).problemTotal = c.problemTotal + 1 ∧
    (∃ h2 ∈ (CategoryResult.addProblem env c p).hints,
        toLowerCase h2.name = toLowerCase p.hintId ∧ h2.problems.getLast? = some p) ∧
    (s.addProblem env p language).hintsCount = s.hintsCount +
      (if p.severity = Severity.error ∨ p.severity = Severity.warning then 1 else 0) ∧
    (s.addProblem env p language).problemTotal = s.problemTotal + 1 := by
  obtain ⟨-, -, -, hcd, hcpt, hcex⟩ := categoryAddProblem_spec env c p hc
  obtain ⟨-, hrd, hrpt, -⟩ := rootAddProblem_spec env s p language hs
  exact ⟨hcd, hcpt, hcex, hrd, hrpt⟩

/-- C7 witness: one `error`-severity problem bumps both counters by one
and records exactly one problem. -/
theorem C7_witness :
    (CategoryResult.addProblem envT cW pW).hintsCount = cW.hintsCount + 1 ∧
    (CategoryResult.addProblem envT cW pW).problemTotal = cW.problemTotal + 1 ∧
    ((AnalysisResult.make "https://example.com" optsT).addProblem envT pW none).hintsCount =
      (AnalysisResult.make "https://example.com" optsT).hintsCount + 1 := by
  have h := C7_counting_predicates envT (AnalysisResult.make "https://example.com" optsT)
    (make_Inv "https://example.com" optsT) cW (by decide) pW none
  refine ⟨?_, h.2.1, ?_⟩
  · have h1 := h.1
    rw [if_pos (by decide)] at h1
    exact h1
  · have h4 := h.2.2.2.1
    rw [if_pos (by decide)] at h4
    exact h4

/-! ## C2 (amended): idempotence holds for rules reachable through
`getHintByName`, i.e. rules filed into `hints` -/

/-- C2 (amended): when a rule of the given name already exists in the
category's `hints` collection, a second `addHint` call returns that
existing rule and leaves `hints`, `passed` and `hintsCount` unchanged
(only the lookup cache may be extended); rules filed into `passed` are
not reachable by `getHintByName`, so this idempotence does not extend to
them (see the counterexample). -/
theorem C2_amended_idempotent (env : Env) (c : CategoryResult) (hc : c.Inv)
    (nm status : String)
    (hex : ∃ h ∈ c.hints, toLowerCase h.name = toLowerCase nm) :
    (CategoryResult.addHint env c nm status).2.hints = c.hints ∧
    (CategoryResult.addHint env c nm status).2.passed = c.passed ∧
    (CategoryResult.addHint env c nm status).2.hintsCount = c.hintsCount ∧
    (CategoryResult.addHint env c nm status).1 ∈ c.hints ∧
    toLowerCase (CategoryResult.addHint env c nm status).1.name = toLowerCase nm := by
  obtain ⟨hh, hpa, hcnt, hnm, hurl, hsc, hck, hsome, hnone⟩ :=
    getHintByName_spec c nm hc.1
  unfold CategoryResult.addHint
  generalize hr : c.getHintByName nm = r at hh hpa hcnt hnm hurl hsc hck hsome hnone ⊢
  obtain ⟨r1, c1⟩ := r
  dsimp only at hh hpa hcnt hnm hurl hsc hck hsome hnone
  cases r1 with
  | none =>
    obtain ⟨-, hnomatch⟩ := hnone rfl
    obtain ⟨hx, hxin, hxnm⟩ := hex
    exact absurd hxnm (hnomatch hx hxin)
  | some i =>
    obtain ⟨hilt, hiname⟩ := hsome i rfl
    dsimp only
    refine ⟨hh, hpa, hcnt, ?_, ?_⟩
    · rw [hh]
      exact getD_mem hilt
    · have hgd : c1.hints.getD i default = c.hints.getD i default := by rw [hh]
      rw [hgd]
      exact hiname

/-- C2 witness: the category `cW2` holds a rule `foo` in `hints`; a second
`addHint` with any status returns it unchanged. -/
theorem C2_witness :
    (CategoryResult.addHint envT cW2 "foo" "pass").2.hints = cW2.hints ∧
    (CategoryResult.addHint envT cW2 "foo" "pass").2.passed = cW2.passed ∧
    (CategoryResult.addHint envT cW2 "foo" "pass").2.hintsCount = cW2.hintsCount ∧
    (CategoryResult.addHint envT cW2 "foo" "pass").1 ∈ cW2.hints ∧
    toLowerCase (CategoryResult.addHint envT cW2 "foo" "pass").1.name =
      toLowerCase "foo" :=
  C2_amended_idempotent envT cW2 (by decide) "foo" "pass" (by decide)

end FormatterHtml
